import Mathlib

/-!
GFSK_image: Gaussian high-pass filter (GFSK.cpp) and FIR filter (main.cpp)

Shallow embedding of `applyHighPassFilter` and `main` from `src/GFSK.cpp` and of
`applyFIRFilter` from `src/main.cpp`.

* The image pipeline (`padded`, `spectrum`, `maskedSpectrum`, `croppedMagnitude`,
  `applyHighPassFilter`) is embedded in exact arithmetic: a `float` sample is a real number
  and a two-channel `cv::Mat` is a grid of complex numbers. The statements made over the
  pipeline are on sizes, on the outcome `none`, on the order of the exact mask values and
  on the branch of `cv::normalize` that stores zeros.
* The mask loop is embedded a second time in IEEE 754 arithmetic (`filterAtIEEE`): every
  `double` operation is rounded to nearest, ties to even, with overflow, underflow and NaN,
  and the value is stored as a `float`. The statements on the stored mask values are made
  there.
* `int` sizes and indices are `Nat`/`Int`; none of the integer expressions of
  `applyHighPassFilter` can overflow. The narrowing of `signal.size()` and
  `coefficients.size()` to `int` in `applyFIRFilter` is `toInt32`.
* The samples of `applyFIRFilter` are elements of any type with `0`, `+` and `*`, of which
  no law is assumed; the IEEE `double` numbers are one such type.
* A `Mat` is a matrix that owns its samples (`isSubmatrix()` is false); a header that shows
  a part of a larger matrix is a `SubMat`.
* The OpenCV routines called by the function are embedded by what they compute:
  `getOptimalDFTSize`, `copyMakeBorder`, `merge`, `dft`, `mulSpectrums`, `idft`,
  `split`, `magnitude`, the `cv::Rect` sub-matrix and `normalize`.
* A `cv::Exception` raised by a failed `CV_Assert`, or the exception of a `std::vector`
  constructor, is the result `none`.
* The two nested loops of `applyFIRFilter` are folds over the index ranges that pass the
  vector `filteredSignal` along.
-/

namespace GFSK

/-! ## Data model -/

/-- Dense two-dimensional array, the part of `cv::Mat` used by the program: `rows`, `cols`
and one element per position. -/
structure Mat (α : Type) where
  rows : Nat
  cols : Nat
  data : Fin rows → Fin cols → α

/-! ## cv::getOptimalDFTSize -/

/-- Divide `n` by `p` as long as `p` divides it (at most `fuel` times). -/
def stripFactor (p : Nat) : Nat → Nat → Nat
  | 0, n => n
  | fuel + 1, n => if n % p = 0 then stripFactor p fuel (n / p) else n

/-- Membership in `optimalDFTSizeTab`: the numbers `2^a * 3^b * 5^c`. -/
def isOptimalDFTSize (n : Nat) : Bool :=
  stripFactor 5 n (stripFactor 3 n (stripFactor 2 n n)) == 1

/-- First entry of `optimalDFTSizeTab` at or after `n` (linear search, `fuel` candidates). -/
def nextOptimalDFTSize : Nat → Nat → Nat
  | 0, n => n
  | fuel + 1, n => if isOptimalDFTSize n then n else nextOptimalDFTSize fuel (n + 1)

/-- Last entry of `optimalDFTSizeTab`, `2^5 * 3^12 * 5^3`, the largest number of the form
`2^a * 3^b * 5^c` that fits in a 32-bit `int`. -/
def optimalDFTSizeTabLast : Int := 2125764000

/-- The routine `cv::getOptimalDFTSize`: the smallest `N = 2^a * 3^b * 5^c` with `size0 ≤ N`,
and `-1` when `(unsigned)size0` is not below the last table entry (negative or too large
`size0`). -/
def getOptimalDFTSize (size0 : Int) : Int :=
  if size0 < 0 ∨ optimalDFTSizeTabLast ≤ size0 then -1
  else (nextOptimalDFTSize (size0.toNat + 1) size0.toNat : Nat)

/-! ## cv::copyMakeBorder, cv::Rect sub-matrix -/

/-- The routine `cv::copyMakeBorder` with `BORDER_CONSTANT` on a matrix that owns its samples
(for a sub-matrix see `copyMakeBorderSub`): fails (`CV_Assert`) on a negative border width;
otherwise `src` is copied at offset `(top, left)` and every border element is `value`. -/
def copyMakeBorder {α : Type} (src : Mat α) (top bottom left right : Int) (value : α) :
    Option (Mat α) :=
  if 0 ≤ top ∧ 0 ≤ bottom ∧ 0 ≤ left ∧ 0 ≤ right then
    some
      { rows := src.rows + top.toNat + bottom.toNat
        cols := src.cols + left.toNat + right.toNat
        data := fun i j =>
          if h : (top.toNat ≤ i.val ∧ i.val - top.toNat < src.rows) ∧
              (left.toNat ≤ j.val ∧ j.val - left.toNat < src.cols) then
            src.data ⟨i.val - top.toNat, h.1.2⟩ ⟨j.val - left.toNat, h.2.2⟩
          else value }
  else none

/-- The sub-matrix `m(cv::Rect(x, y, width, height))`: fails (`CV_Assert`) unless the
rectangle lies inside `m`; a rectangle without rows or without columns gives the released
matrix (`rows = cols = 0`). -/
def Mat.roi {α : Type} (m : Mat α) (x y width height : Nat) : Option (Mat α) :=
  if h : x + width ≤ m.cols ∧ y + height ≤ m.rows then
    if height = 0 ∨ width = 0 then
      some
        { rows := 0
          cols := 0
          data := fun i _ => i.elim0 }
    else
      some
        { rows := height
          cols := width
          data := fun i j => m.data ⟨y + i.val, by omega⟩ ⟨x + j.val, by omega⟩ }
  else none

/-! ## Complex planes, transforms -/

/-- The routine `cv::merge` of two planes into one two-channel (complex) grid. -/
def merge {R C : Nat} (re im : Fin R → Fin C → ℝ) : Fin R → Fin C → ℂ :=
  fun i j => ⟨re i j, im i j⟩

/-- The routine `cv::split` of a two-channel grid into its two planes. -/
def split {R C : Nat} (z : Fin R → Fin C → ℂ) : (Fin R → Fin C → ℝ) × (Fin R → Fin C → ℝ) :=
  (fun i j => (z i j).re, fun i j => (z i j).im)

/-- Primitive `N`-th root of unity of the forward transform, `exp(-2πi/N)`. -/
noncomputable def rootOfUnity (N : Nat) : ℂ :=
  Complex.exp (-(2 * Real.pi * Complex.I) / N)

/-- The routine `cv::dft` on a two-channel grid with `flags = 0`: the forward two-dimensional
discrete Fourier transform, not scaled. -/
noncomputable def dft {R C : Nat} (x : Fin R → Fin C → ℂ) : Fin R → Fin C → ℂ :=
  fun u v => ∑ r : Fin R, ∑ c : Fin C,
    x r c * (rootOfUnity R ^ (u.val * r.val) * rootOfUnity C ^ (v.val * c.val))

/-- The routine `cv::idft` with default flags (`DFT_INVERSE` without `DFT_SCALE`): the
inverse transform without the `1/(R*C)` factor. -/
noncomputable def idft {R C : Nat} (x : Fin R → Fin C → ℂ) : Fin R → Fin C → ℂ :=
  fun r c => ∑ u : Fin R, ∑ v : Fin C,
    x u v * ((rootOfUnity R)⁻¹ ^ (u.val * r.val) * (rootOfUnity C)⁻¹ ^ (v.val * c.val))

/-- The routine `cv::mulSpectrums` on two-channel grids with `flags = 0`, `conjB = false`:
the element-wise complex product. -/
def mulSpectrums {R C : Nat} (a b : Fin R → Fin C → ℂ) : Fin R → Fin C → ℂ :=
  fun u v => a u v * b u v

/-- The routine `cv::magnitude`: `sqrt(x^2 + y^2)` element by element. -/
noncomputable def magnitude {R C : Nat} (x y : Fin R → Fin C → ℝ) : Fin R → Fin C → ℝ :=
  fun i j => Real.sqrt (x i j ^ 2 + y i j ^ 2)

/-! ## cv::normalize with NORM_MINMAX -/

/-- The constant `DBL_EPSILON` of `<cfloat>`, `2^-52`. -/
def DBL_EPSILON {α : Type} [LinearOrderedField α] : α := 1 / 2 ^ 52

/-- Minimum found by `cv::minMaxIdx` (`0` for an empty array). -/
def minVal {α : Type} [LinearOrder α] [Zero α] (src : Mat α) : α :=
  if h : 0 < src.rows ∧ 0 < src.cols then
    (Finset.univ : Finset (Fin src.rows × Fin src.cols)).inf'
      ⟨(⟨0, h.1⟩, ⟨0, h.2⟩), Finset.mem_univ _⟩ (fun p => src.data p.1 p.2)
  else 0

/-- Maximum found by `cv::minMaxIdx` (`0` for an empty array). -/
def maxVal {α : Type} [LinearOrder α] [Zero α] (src : Mat α) : α :=
  if h : 0 < src.rows ∧ 0 < src.cols then
    (Finset.univ : Finset (Fin src.rows × Fin src.cols)).sup'
      ⟨(⟨0, h.1⟩, ⟨0, h.2⟩), Finset.mem_univ _⟩ (fun p => src.data p.1 p.2)
  else 0

/-- The routine `cv::normalize(src, dst, a, b, cv::NORM_MINMAX)`:
`scale = (dmax - dmin) * (smax - smin > DBL_EPSILON ? 1/(smax - smin) : 0)`,
`shift = dmin - smin * scale`, and every element becomes `x * scale + shift`, here in
exact arithmetic (the program evaluates `x * scale + shift` in `float`; with the scale 0
both give 0). -/
def normalize {α : Type} [LinearOrderedField α] (src : Mat α) (a b : α) : Mat α :=
  let smin := minVal src
  let smax := maxVal src
  let dmin := min a b
  let dmax := max a b
  let scale := (dmax - dmin) * (if DBL_EPSILON < smax - smin then 1 / (smax - smin) else 0)
  let shift := dmin - smin * scale
  { rows := src.rows
    cols := src.cols
    data := fun i j => src.data i j * scale + shift }

/-! ## applyHighPassFilter -/

/-- The value `D_square` of the mask loop: `pow(u - m / 2, 2) + pow(v - n / 2, 2)`, with the
`int` quotients `m / 2` and `n / 2`. -/
def D_square (m n : Int) (u v : Nat) : Int :=
  ((u : Int) - Int.tdiv m 2) ^ 2 + ((v : Int) - Int.tdiv n 2) ^ 2

/-- The value of `1 - exp(-D_square / (2 * D0 * D0))` in exact arithmetic; the `float` that
the program stores in `filter.at<float>(u, v)` is `filterAtIEEE`. -/
noncomputable def filterAt (m n : Int) (D0 : ℝ) (u v : Nat) : ℝ :=
  1 - Real.exp (-(D_square m n u v : ℝ) / (2 * D0 * D0))

/-- The grid `filter` after the double loop, of the size of `complexI`. -/
noncomputable def filter (R C : Nat) (m n : Int) (D0 : ℝ) : Fin R → Fin C → ℝ :=
  fun u v => filterAt m n D0 u.val v.val

/-- The grid `complexFilter`: `cv::merge` of `planesH = { filter, filter }`. -/
noncomputable def complexFilter (R C : Nat) (m n : Int) (D0 : ℝ) : Fin R → Fin C → ℂ :=
  merge (filter R C m n D0) (filter R C m n D0)

/-- Lines 15-20 of `applyHighPassFilter` for a `src` that owns its samples: the padded sizes
`m`, `n` and the zero-padded copy of `src`. -/
def padded (src : Mat ℝ) : Option (Mat ℝ) :=
  let rows : Int := src.rows
  let cols : Int := src.cols
  let m := getOptimalDFTSize rows
  let n := getOptimalDFTSize cols
  copyMakeBorder src 0 (m - rows) 0 (n - cols) 0

/-- Lines 22-26: `complexI` after `cv::dft`, the spectrum of the padded grid. -/
noncomputable def spectrum (p : Mat ℝ) : Fin p.rows → Fin p.cols → ℂ :=
  dft (merge p.data (fun _ _ => 0))

/-- Lines 31-43: `complexI` after `cv::mulSpectrums` with `complexFilter`. -/
noncomputable def maskedSpectrum (p : Mat ℝ) (m n : Int) (D0 : ℝ) :
    Fin p.rows → Fin p.cols → ℂ :=
  mulSpectrums (spectrum p) (complexFilter p.rows p.cols m n D0)

/-- Lines 45-47: `dst` after `cv::magnitude`, before the crop. -/
noncomputable def filteredMagnitude (p : Mat ℝ) (m n : Int) (D0 : ℝ) : Mat ℝ :=
  let planes := split (idft (maskedSpectrum p m n D0))
  { rows := p.rows
    cols := p.cols
    data := magnitude planes.1 planes.2 }

/-- Lines 15-48: the value of `dst` just before `cv::normalize` (the cropped magnitude). -/
noncomputable def croppedMagnitude (src : Mat ℝ) (D0 : ℝ) : Option (Mat ℝ) :=
  let m := getOptimalDFTSize src.rows
  let n := getOptimalDFTSize src.cols
  (padded src).bind fun p => (filteredMagnitude p m n D0).roi 0 0 src.cols src.rows

/-- The function `applyHighPassFilter(src, dst, D0)`: the grid left in `dst`, or `none`
when an OpenCV assertion fails. -/
noncomputable def applyHighPassFilter (src : Mat ℝ) (D0 : ℝ) : Option (Mat ℝ) :=
  (croppedMagnitude src D0).map fun dst => normalize dst 0 1

/-! ## IEEE 754 rounding -/

/-- Rounding of a real number to the nearest integer, ties to the even integer. -/
noncomputable def roundHalfEven (t : ℝ) : ℤ :=
  if t - ⌊t⌋ < 1 / 2 then ⌊t⌋
  else if 1 / 2 < t - ⌊t⌋ then ⌊t⌋ + 1
  else if Even ⌊t⌋ then ⌊t⌋ else ⌊t⌋ + 1

/-- Exponent of the unit in the last place at the magnitude `a`, in the binary format with
`p` significant bits and least normal exponent `emin` (below `2^emin` the numbers are
subnormal and the unit stays `2^(emin - p + 1)`). -/
noncomputable def ulpExponent (p : Nat) (emin : Int) (a : ℝ) : Int :=
  max (Int.log 2 a) emin - ((p : Int) - 1)

/-- The magnitude `a ≥ 0` rounded to the nearest multiple of its unit in the last place,
ties to even. -/
noncomputable def roundMagnitude (p : Nat) (emin : Int) (a : ℝ) : ℝ :=
  (roundHalfEven (a / 2 ^ ulpExponent p emin a) : ℝ) * 2 ^ ulpExponent p emin a

/-- Round to nearest, ties to even, in the binary format with `p` significant bits and
least normal exponent `emin`; the exponent is not bounded above (overflow is tested by the
caller). -/
noncomputable def roundToFormat (p : Nat) (emin : Int) (x : ℝ) : ℝ :=
  if x < 0 then -roundMagnitude p emin (-x) else roundMagnitude p emin x

/-- Rounding to `double` (binary64: 53 significant bits, least normal exponent -1022). -/
noncomputable def roundDouble (x : ℝ) : ℝ := roundToFormat 53 (-1022) x

/-- Rounding to `float` (binary32: 24 significant bits, least normal exponent -126). -/
noncomputable def roundFloat (x : ℝ) : ℝ := roundToFormat 24 (-126) x

/-- The constant `DBL_MAX`, the largest finite `double`: `(2^53 - 1) * 2^971`. -/
def DBL_MAX : ℝ := (2 ^ 53 - 1) * 2 ^ 971

/-! ## The mask loop in IEEE 754 arithmetic -/

/-- The `double` in `D_square`: each `pow(., 2)` gives the square rounded to `double`, and
their sum is rounded to `double`. -/
noncomputable def D_squareIEEE (m n : Int) (u v : Nat) : ℝ :=
  roundDouble
    (roundDouble ((((u : Int) - Int.tdiv m 2) ^ 2 : Int) : ℝ) +
      roundDouble ((((v : Int) - Int.tdiv n 2) ^ 2 : Int) : ℝ))

/-- The `double` product `2 * D0 * D0` (two rounded multiplications), before the test for
overflow. -/
noncomputable def cutoffDenominator (D0 : ℝ) : ℝ :=
  roundDouble (roundDouble (2 * D0) * D0)

/-- The `float` stored for `1 - exp(q)` when the quotient `q ≤ 0` has the `double` value `q`
before the test for overflow: below `-DBL_MAX` the quotient is `-inf`, `exp` gives 0 and the
value is 1; otherwise `exp` (taken as correctly rounded) and the subtraction are rounded to
`double` and the result is rounded to `float`. -/
noncomputable def maskOfQuotient (q : ℝ) : ℝ :=
  if q < -DBL_MAX then 1
  else roundFloat (roundDouble (1 - roundDouble (Real.exp q)))

/-- The value stored in `filter.at<float>(u, v)` by
`1 - exp(-D_square / (2 * D0 * D0))` in IEEE 754 arithmetic, for a cutoff `D0` that is a
number (`none` is NaN). When `2 * D0 * D0` overflows, the quotient is `-0`, `exp` gives 1
and the value is 0; when it is rounded to `0`, the quotient is `-inf` and the value 1, or
`0/0 = NaN` when `D_square` is 0; otherwise the quotient is rounded to `double`. -/
noncomputable def filterAtIEEE (m n : Int) (D0 : ℝ) (u v : Nat) : Option ℝ :=
  if DBL_MAX < cutoffDenominator D0 then some 0
  else if cutoffDenominator D0 = 0 then
    if D_squareIEEE m n u v = 0 then none else some 1
  else some (maskOfQuotient (roundDouble (-D_squareIEEE m n u v / cutoffDenominator D0)))

/-! ## Sub-matrix views -/

/-- A `cv::Mat` header together with the matrix that owns its samples: the header shows the
`rows x cols` rectangle at offset `(y, x)` of `whole` (what `locateROI` reports). -/
structure SubMat (α : Type) where
  whole : Mat α
  y : Nat
  x : Nat
  rows : Nat
  cols : Nat
  hy : y + rows ≤ whole.rows
  hx : x + cols ≤ whole.cols

/-- The grid seen through the header. -/
def SubMat.toMat {α : Type} (s : SubMat α) : Mat α :=
  { rows := s.rows
    cols := s.cols
    data := fun i j =>
      s.whole.data ⟨s.y + i.val, by have := s.hy; omega⟩ ⟨s.x + j.val, by have := s.hx; omega⟩ }

/-- The header of a matrix that owns its samples: it shows the whole matrix. -/
def Mat.toSubMat {α : Type} (m : Mat α) : SubMat α :=
  { whole := m
    y := 0
    x := 0
    rows := m.rows
    cols := m.cols
    hy := by omega
    hx := by omega }

/-- The test `isSubmatrix()`: the header shows fewer rows or fewer columns than the matrix
that owns the samples. -/
def SubMat.isSubmatrix {α : Type} (s : SubMat α) : Bool :=
  decide (s.cols < s.whole.cols) || decide (s.rows < s.whole.rows)

/-- The method `adjustROI(dtop, dbottom, dleft, dright)`: the rectangle grows by the given
amounts on its four sides, clipped to the matrix that owns the samples. -/
def SubMat.adjustROI {α : Type} (s : SubMat α) (dtop dbottom dleft dright : Nat) : SubMat α :=
  let row1 := min (s.y - dtop) s.whole.rows
  let row2 := min (s.y + s.rows + dbottom) s.whole.rows
  let col1 := min (s.x - dleft) s.whole.cols
  let col2 := min (s.x + s.cols + dright) s.whole.cols
  { whole := s.whole
    y := row1
    x := col1
    rows := row2 - row1
    cols := col2 - col1
    hy := by have := s.hy; omega
    hx := by have := s.hx; omega }

/-- The routine `cv::copyMakeBorder` with `BORDER_CONSTANT` as called by the program, without
`BORDER_ISOLATED`, on a header `src`: when `src` is a sub-matrix, the border is first taken
from the samples that surround the rectangle in the matrix that owns them (`adjustROI`), and
only the rest of the border is `value`. -/
def copyMakeBorderSub {α : Type} (src : SubMat α) (top bottom left right : Int) (value : α) :
    Option (Mat α) :=
  if 0 ≤ top ∧ 0 ≤ bottom ∧ 0 ≤ left ∧ 0 ≤ right then
    if src.isSubmatrix then
      let dtop := min src.y top.toNat
      let dbottom := min (src.whole.rows - src.rows - src.y) bottom.toNat
      let dleft := min src.x left.toNat
      let dright := min (src.whole.cols - src.cols - src.x) right.toNat
      copyMakeBorder (src.adjustROI dtop dbottom dleft dright).toMat
        (top - dtop) (bottom - dbottom) (left - dleft) (right - dright) value
    else copyMakeBorder src.toMat top bottom left right value
  else none

/-- Lines 15-20 of `applyHighPassFilter` for a header `src` that may be a sub-matrix. -/
def paddedSub (src : SubMat ℝ) : Option (Mat ℝ) :=
  let rows : Int := src.rows
  let cols : Int := src.cols
  let m := getOptimalDFTSize rows
  let n := getOptimalDFTSize cols
  copyMakeBorderSub src 0 (m - rows) 0 (n - cols) 0

/-! ## main of GFSK.cpp -/

/-- The test `A.empty()`: the matrix has no element. -/
def Mat.empty {α : Type} (m : Mat α) : Bool :=
  m.rows == 0 || m.cols == 0

/-- The call `A.convertTo(A, CV_32F, alpha)`: every sample multiplied by `alpha`. -/
def convertTo (A : Mat ℝ) (alpha : ℝ) : Mat ℝ :=
  { rows := A.rows
    cols := A.cols
    data := fun i j => A.data i j * alpha }

/-- The function `main` of GFSK.cpp as a function of the image `A` returned by `cv::imread`
(samples `0..255`): `some (-1, [])` is the exit after "Error opening image!",
`some (0, [A, F1_30, F1_60, F1_120])` the exit after the four `cv::imshow` calls, and
`none` an exception raised inside `applyHighPassFilter`. -/
noncomputable def main (A : Mat ℝ) : Option (Int × List (Mat ℝ)) :=
  if A.empty then some (-1, [])
  else
    (applyHighPassFilter (convertTo A (1 / 255)) 30).bind fun F1_30 =>
    (applyHighPassFilter (convertTo A (1 / 255)) 60).bind fun F1_60 =>
    (applyHighPassFilter (convertTo A (1 / 255)) 120).bind fun F1_120 =>
    some (0, [convertTo A (1 / 255), F1_30, F1_60, F1_120])

/-! ## Reference pipeline of the equivalence claim -/

/-- The conversion of a `size_t` value to `int` in `int signalLength = signal.size();`:
the value modulo `2^32`, read as a signed 32-bit number. -/
def toInt32 (size : Nat) : Int :=
  if size % 2 ^ 32 < 2 ^ 31 then ((size % 2 ^ 32 : Nat) : Int)
  else ((size % 2 ^ 32 : Nat) : Int) - 2 ^ 32

/-- Body of the inner loop of `applyFIRFilter` for the indices `i`, `j`:
`if (i - j >= 0) filteredSignal[i] += coefficients[j] * signal[i - j];`. -/
def firStep {α : Type} [Zero α] [Add α] [Mul α] (signal coefficients : List α) (i : Nat)
    (filteredSignal : List α) (j : Nat) : List α :=
  if 0 ≤ (i : Int) - (j : Int) then
    filteredSignal.set i
      (filteredSignal.getD i 0 + coefficients.getD j 0 * signal.getD (i - j) 0)
  else filteredSignal

/-- The function `applyFIRFilter(signal, coefficients)`. The two sizes are narrowed to `int`;
`std::vector<double> filteredSignal(signalLength, 0.0)` throws (`none`) for a negative
`signalLength`; otherwise `filteredSignal` starts as `signalLength` zeros and is updated by
the two nested loops, which run over `0 ≤ i < signalLength` and `0 ≤ j < filterLength`.
The samples are elements of `α` with its own `0`, `+` and `*`, of which nothing is assumed
(for `double` each product and each sum is rounded, and there are infinities and NaN). -/
def applyFIRFilter {α : Type} [Zero α] [Add α] [Mul α] (signal coefficients : List α) :
    Option (List α) :=
  let signalLength : Int := toInt32 signal.length
  let filterLength : Int := toInt32 coefficients.length
  if signalLength < 0 then none
  else
    some
      ((List.range signalLength.toNat).foldl
        (fun filteredSignal i =>
          (List.range filterLength.toNat).foldl (firStep signal coefficients i) filteredSignal)
        (List.replicate signalLength.toNat 0))

/-- The value that the inner loop leaves in `filteredSignal[i]` when it starts from `a` and
runs over `j = 0, ..., k - 1`: the terms `coefficients[j] * signal[i - j]` with `j ≤ i` are
added one after the other, in the order of `j`. -/
def firAccumulate {α : Type} [Zero α] [Add α] [Mul α] (signal coefficients : List α)
    (i k : Nat) (a : α) : α :=
  (List.range (min (i + 1) k)).foldl
    (fun acc j => acc + coefficients.getD j 0 * signal.getD (i - j) 0) a

/-- The unit impulse of length `n ≥ 1`: `1` followed by `n - 1` zeros. -/
def unitImpulse {α : Type} [Zero α] [One α] (n : Nat) : List α :=
  1 :: List.replicate (n - 1) 0

/-! ## The `double` samples of applyFIRFilter -/

/-- A finite `double` number, given by the real number it represents. The sum and the
product are the exact results rounded to `double` (no overflow at the values used). -/
structure Double where
  val : ℝ

instance : Zero Double := ⟨⟨0⟩⟩

noncomputable instance : Add Double := ⟨fun a b => ⟨roundDouble (a.val + b.val)⟩⟩

noncomputable instance : Mul Double := ⟨fun a b => ⟨roundDouble (a.val * b.val)⟩⟩

/-! ## Concrete grids of the scenarios -/

/-- The 2 x 2 grid with the sample `t` at `(0,0)` and `0` elsewhere. -/
def impulseGrid (t : ℝ) : Mat ℝ := Mat.mk 2 2 (fun i j => if i.val = 0 ∧ j.val = 0 then t else 0)

/-- The left 3 x 7 block of the 3 x 8 grid of ones, as a sub-matrix. -/
def onesView : SubMat ℝ :=
  { whole := Mat.mk 3 8 (fun _ _ => 1)
    y := 0
    x := 0
    rows := 3
    cols := 7
    hy := by decide
    hx := by decide }

/-! ## Padded sizes -/

theorem le_nextOptimalDFTSize (fuel n : Nat) : n ≤ nextOptimalDFTSize fuel n := by
  induction fuel generalizing n with
  | zero => simp [nextOptimalDFTSize]
  | succ k ih =>
    unfold nextOptimalDFTSize
    split
    · exact le_rfl
    · exact le_trans (Nat.le_succ n) (ih (n + 1))

theorem getOptimalDFTSize_of_lt (k : Nat) (h : (k : Int) < optimalDFTSizeTabLast) :
    getOptimalDFTSize k = (nextOptimalDFTSize (k + 1) k : Nat) := by
  unfold getOptimalDFTSize
  rw [if_neg (by omega)]
  simp

theorem le_getOptimalDFTSize (k : Nat) (h : (k : Int) < optimalDFTSizeTabLast) :
    (k : Int) ≤ getOptimalDFTSize k := by
  rw [getOptimalDFTSize_of_lt k h]
  exact_mod_cast le_nextOptimalDFTSize (k + 1) k

theorem getOptimalDFTSize_of_ge (k : Nat) (h : optimalDFTSizeTabLast ≤ (k : Int)) :
    getOptimalDFTSize k = -1 := by
  unfold getOptimalDFTSize
  rw [if_pos (Or.inr h)]

theorem padded_eq_some (src : Mat ℝ) (hr : (src.rows : Int) < optimalDFTSizeTabLast)
    (hc : (src.cols : Int) < optimalDFTSizeTabLast) :
    ∃ p : Mat ℝ, padded src = some p ∧
      (p.rows : Int) = getOptimalDFTSize src.rows ∧
      (p.cols : Int) = getOptimalDFTSize src.cols ∧
      ∀ (i : Fin p.rows) (j : Fin p.cols),
        p.data i j =
          if h : i.val < src.rows ∧ j.val < src.cols then src.data ⟨i.val, h.1⟩ ⟨j.val, h.2⟩
          else 0 := by
  have h1 := le_getOptimalDFTSize src.rows hr
  have h2 := le_getOptimalDFTSize src.cols hc
  unfold padded copyMakeBorder
  simp only []
  rw [if_pos ⟨le_rfl, by omega, le_rfl, by omega⟩]
  refine ⟨_, rfl, ?_, ?_, ?_⟩
  · simp only [Int.toNat_zero, add_zero]
    omega
  · simp only [Int.toNat_zero, add_zero]
    omega
  · intro i j
    simp only [Int.toNat_zero, Nat.zero_le, Nat.sub_zero, true_and]

theorem croppedMagnitude_eq_some (src : Mat ℝ) (D0 : ℝ)
    (hr0 : 0 < src.rows) (hc0 : 0 < src.cols)
    (hr : (src.rows : Int) < optimalDFTSizeTabLast)
    (hc : (src.cols : Int) < optimalDFTSizeTabLast) :
    ∃ pre : Mat ℝ, croppedMagnitude src D0 = some pre ∧
      pre.rows = src.rows ∧ pre.cols = src.cols := by
  obtain ⟨p, hp, h1, h2, -⟩ := padded_eq_some src hr hc
  have h3 := le_getOptimalDFTSize src.rows hr
  have h4 := le_getOptimalDFTSize src.cols hc
  have hfit : 0 + src.cols ≤ (filteredMagnitude p (getOptimalDFTSize src.rows)
      (getOptimalDFTSize src.cols) D0).cols ∧
      0 + src.rows ≤ (filteredMagnitude p (getOptimalDFTSize src.rows)
      (getOptimalDFTSize src.cols) D0).rows := by
    simp only [filteredMagnitude]
    omega
  unfold croppedMagnitude
  simp only [hp, Option.some_bind, Mat.roi]
  rw [dif_pos hfit, if_neg (by omega)]
  exact ⟨_, rfl, rfl, rfl⟩

theorem applyHighPassFilter_eq_some (src : Mat ℝ) (D0 : ℝ)
    (hr0 : 0 < src.rows) (hc0 : 0 < src.cols)
    (hr : (src.rows : Int) < optimalDFTSizeTabLast)
    (hc : (src.cols : Int) < optimalDFTSizeTabLast) :
    ∃ dst : Mat ℝ, applyHighPassFilter src D0 = some dst ∧
      dst.rows = src.rows ∧ dst.cols = src.cols := by
  obtain ⟨pre, hpre, h1, h2⟩ := croppedMagnitude_eq_some src D0 hr0 hc0 hr hc
  refine ⟨normalize pre 0 1, ?_, ?_, ?_⟩
  · simp [applyHighPassFilter, hpre]
  · simpa [normalize] using h1
  · simpa [normalize] using h2

theorem padded_eq_none_of_rows (src : Mat ℝ) (h : optimalDFTSizeTabLast ≤ (src.rows : Int)) :
    padded src = none := by
  unfold padded copyMakeBorder
  simp only []
  rw [getOptimalDFTSize_of_ge src.rows h, if_neg]
  simp only [optimalDFTSizeTabLast] at h
  omega

theorem paddedSub_of_not_isSubmatrix (src : SubMat ℝ) (h : src.isSubmatrix = false) :
    paddedSub src = padded src.toMat := by
  unfold paddedSub padded copyMakeBorderSub
  simp only [h]
  unfold copyMakeBorder
  simp only [SubMat.toMat]
  split <;> simp_all

theorem isSubmatrix_toSubMat {α : Type} (m : Mat α) : m.toSubMat.isSubmatrix = false := by
  simp [SubMat.isSubmatrix, Mat.toSubMat]

theorem paddedSub_onesView :
    ∃ p : Mat ℝ, paddedSub onesView = some p ∧ p.rows = 3 ∧ p.cols = 8 ∧
      ∀ (i : Fin p.rows) (j : Fin p.cols), p.data i j = 1 := by
  have h3 : getOptimalDFTSize ((3 : Nat) : Int) = 3 := by decide
  have h7 : getOptimalDFTSize ((7 : Nat) : Int) = 8 := by decide
  unfold paddedSub
  simp only [onesView, h3, h7]
  unfold copyMakeBorderSub
  simp [SubMat.isSubmatrix, copyMakeBorder, SubMat.adjustROI, SubMat.toMat]
  intro i j
  have hi := i.isLt
  have hj := j.isLt
  simp at hi hj
  omega

/-! ## Claims on sizes and padding -/

/-- C2 (amended): for every src with 0 < rows < 2125764000 and 0 < cols < 2125764000 and
every D0, applyHighPassFilter produces a grid with exactly src.rows rows and src.cols
columns, and the padded sizes m, n chosen by the padding step satisfy rows ≤ m and
cols ≤ n, so the crop rectangle (0, 0, cols, rows) fits inside the padded grid. -/
theorem shape_preservation (src : Mat ℝ) (D0 : ℝ)
    (hr0 : 0 < src.rows) (hc0 : 0 < src.cols)
    (hr : (src.rows : Int) < optimalDFTSizeTabLast)
    (hc : (src.cols : Int) < optimalDFTSizeTabLast) :
    (∃ dst : Mat ℝ, applyHighPassFilter src D0 = some dst ∧
      dst.rows = src.rows ∧ dst.cols = src.cols) ∧
    (src.rows : Int) ≤ getOptimalDFTSize src.rows ∧
    (src.cols : Int) ≤ getOptimalDFTSize src.cols :=
  ⟨applyHighPassFilter_eq_some src D0 hr0 hc0 hr hc, le_getOptimalDFTSize _ hr,
    le_getOptimalDFTSize _ hc⟩

/-- C2 (counterexample): a grid of 2125764000 rows and one column has rows > 0 and
cols > 0, but the padded size m is -1, the border width m - rows is negative and
applyHighPassFilter produces no grid. -/
theorem shape_preservation_counterexample :
    0 < (Mat.mk 2125764000 1 (fun _ _ => (0 : ℝ))).rows ∧
    0 < (Mat.mk 2125764000 1 (fun _ _ => (0 : ℝ))).cols ∧
    getOptimalDFTSize 2125764000 = -1 ∧
    applyHighPassFilter (Mat.mk 2125764000 1 (fun _ _ => (0 : ℝ))) 30 = none := by
  refine ⟨by norm_num, by norm_num, by decide, ?_⟩
  have h : padded (Mat.mk 2125764000 1 (fun _ _ => (0 : ℝ))) = none :=
    padded_eq_none_of_rows _ (by simp [optimalDFTSizeTabLast])
  simp [applyHighPassFilter, croppedMagnitude, h]

/-- C2 (witness): a 3 x 7 grid is returned as a 3 x 7 grid (padded to 3 x 8). -/
theorem shape_preservation_witness :
    (∃ dst : Mat ℝ, applyHighPassFilter (Mat.mk 3 7 (fun _ _ => (1 : ℝ))) 30 = some dst ∧
      dst.rows = 3 ∧ dst.cols = 7) ∧
    ((3 : Nat) : Int) ≤ getOptimalDFTSize (3 : Nat) ∧
    ((7 : Nat) : Int) ≤ getOptimalDFTSize (7 : Nat) :=
  shape_preservation (Mat.mk 3 7 (fun _ _ => (1 : ℝ))) 30 (by decide) (by decide)
    (by decide) (by decide)

/-- C8 (amended): for every src that is not a sub-matrix of a larger matrix
(`isSubmatrix()` false) with 0 < rows < 2125764000 and 0 < cols < 2125764000 the padding
step succeeds, the padded grid has m rows and n columns with m ≥ rows and n ≥ cols, it
equals src on the top-left rows x cols block and is 0 everywhere else; it is the grid
`padded` that the later steps of applyHighPassFilter use. -/
theorem padding_invariant (src : SubMat ℝ) (hown : src.isSubmatrix = false)
    (_hr0 : 0 < src.rows) (_hc0 : 0 < src.cols)
    (hr : (src.rows : Int) < optimalDFTSizeTabLast)
    (hc : (src.cols : Int) < optimalDFTSizeTabLast) :
    ∃ p : Mat ℝ, paddedSub src = some p ∧ padded src.toMat = some p ∧
      (p.rows : Int) = getOptimalDFTSize src.rows ∧
      (p.cols : Int) = getOptimalDFTSize src.cols ∧
      src.rows ≤ p.rows ∧ src.cols ≤ p.cols ∧
      (∀ (i : Fin src.rows) (j : Fin src.cols) (hi : i.val < p.rows) (hj : j.val < p.cols),
        p.data ⟨i.val, hi⟩ ⟨j.val, hj⟩ = src.toMat.data i j) ∧
      (∀ (i : Fin p.rows) (j : Fin p.cols),
        ¬ (i.val < src.rows ∧ j.val < src.cols) → p.data i j = 0) := by
  obtain ⟨p, hp, h1, h2, hdata⟩ := padded_eq_some src.toMat hr hc
  have h3 := le_getOptimalDFTSize src.rows hr
  have h4 := le_getOptimalDFTSize src.cols hc
  have h1' : (p.rows : Int) = getOptimalDFTSize src.rows := h1
  have h2' : (p.cols : Int) = getOptimalDFTSize src.cols := h2
  refine ⟨p, by rw [paddedSub_of_not_isSubmatrix src hown, hp], hp, h1', h2', by omega,
    by omega, ?_, ?_⟩
  · intro i j hi hj
    rw [hdata]
    exact dif_pos ⟨i.isLt, j.isLt⟩
  · intro i j hij
    rw [hdata]
    exact dif_neg hij

/-- C8 (counterexample): two grids with rows > 0 and cols > 0. For a grid of 2125764000
rows and one column the padded size m is -1, below rows, and no padded grid is built. For
the left 3 x 7 block of the 3 x 8 grid of ones, passed as a sub-matrix, the added column
of the padded 3 x 8 grid is the eighth column of the grid of ones: the sample at row 0,
column 7 is 1, not 0. -/
theorem padding_invariant_counterexample :
    (¬ (((Mat.mk 2125764000 1 (fun _ _ => (0 : ℝ))).rows : Int) ≤
        getOptimalDFTSize ((Mat.mk 2125764000 1 (fun _ _ => (0 : ℝ))).rows)) ∧
      padded (Mat.mk 2125764000 1 (fun _ _ => (0 : ℝ))) = none ∧
      paddedSub (Mat.mk 2125764000 1 (fun _ _ => (0 : ℝ))).toSubMat = none) ∧
    (0 < onesView.rows ∧ 0 < onesView.cols ∧ onesView.isSubmatrix = true ∧
      ∃ p : Mat ℝ, paddedSub onesView = some p ∧
        ∃ (i : Fin p.rows) (j : Fin p.cols),
          ¬ (i.val < onesView.rows ∧ j.val < onesView.cols) ∧ p.data i j = 1) := by
  have hnone : padded (Mat.mk 2125764000 1 (fun _ _ => (0 : ℝ))) = none :=
    padded_eq_none_of_rows _ (by simp [optimalDFTSizeTabLast])
  refine ⟨⟨by decide, hnone, ?_⟩, by decide, by decide, by decide, ?_⟩
  · rw [paddedSub_of_not_isSubmatrix _ (isSubmatrix_toSubMat _)]
    exact hnone
  · obtain ⟨p, hp, hrows, hcols, hdata⟩ := paddedSub_onesView
    refine ⟨p, hp, ⟨0, by omega⟩, ⟨7, by omega⟩, ?_, hdata _ _⟩
    show ¬ (0 < 3 ∧ 7 < 7)
    omega

/-- C8 (witness): a 3 x 7 grid that owns its samples is padded to 3 x 8, with zeros in the
added column. -/
theorem padding_invariant_witness :
    (Mat.mk 3 7 (fun _ _ => (1 : ℝ))).toSubMat.isSubmatrix = false ∧
    ∃ p : Mat ℝ, paddedSub (Mat.mk 3 7 (fun _ _ => (1 : ℝ))).toSubMat = some p ∧
      padded (Mat.mk 3 7 (fun _ _ => (1 : ℝ))) = some p ∧
      (p.rows : Int) = getOptimalDFTSize (3 : Nat) ∧
      (p.cols : Int) = getOptimalDFTSize (7 : Nat) ∧
      3 ≤ p.rows ∧ 7 ≤ p.cols ∧
      (∀ (i : Fin 3) (j : Fin 7) (hi : i.val < p.rows) (hj : j.val < p.cols),
        p.data ⟨i.val, hi⟩ ⟨j.val, hj⟩ = 1) ∧
      (∀ (i : Fin p.rows) (j : Fin p.cols),
        ¬ (i.val < 3 ∧ j.val < 7) → p.data i j = 0) :=
  ⟨isSubmatrix_toSubMat _,
    padding_invariant (Mat.mk 3 7 (fun _ _ => (1 : ℝ))).toSubMat (isSubmatrix_toSubMat _)
      (by decide) (by decide) (by decide) (by decide)⟩

/-! ## The mask -/

theorem D_square_nonneg (m n : Int) (u v : Nat) : 0 ≤ D_square m n u v := by
  unfold D_square
  positivity

theorem tdiv_two_natCast (M : Nat) : Int.tdiv (M : Int) 2 = ((M / 2 : Nat) : Int) := by
  rw [Int.tdiv_eq_ediv (Int.natCast_nonneg M) (by norm_num)]
  norm_cast

theorem D_square_eq_zero_iff (M N u v : Nat) :
    D_square M N u v = 0 ↔ (u, v) = (M / 2, N / 2) := by
  unfold D_square
  rw [tdiv_two_natCast, tdiv_two_natCast, Prod.mk.injEq]
  constructor
  · intro h
    have h1 : ((u : Int) - ((M / 2 : Nat) : Int)) ^ 2 = 0 := by nlinarith [sq_nonneg ((u : Int) - ((M / 2 : Nat) : Int)), sq_nonneg ((v : Int) - ((N / 2 : Nat) : Int))]
    have h2 : ((v : Int) - ((N / 2 : Nat) : Int)) ^ 2 = 0 := by nlinarith [sq_nonneg ((u : Int) - ((M / 2 : Nat) : Int)), sq_nonneg ((v : Int) - ((N / 2 : Nat) : Int))]
    have h3 := pow_eq_zero_iff (two_ne_zero) |>.mp h1
    have h4 := pow_eq_zero_iff (two_ne_zero) |>.mp h2
    omega
  · rintro ⟨rfl, rfl⟩
    simp

theorem two_mul_sq_pos (D0 : ℝ) (hD : D0 ≠ 0) : 0 < 2 * D0 * D0 := by
  have := mul_self_pos.mpr hD
  linarith

theorem filterAt_le_iff (m n : Int) (D0 : ℝ) (hD : D0 ≠ 0) (u v u' v' : Nat) :
    filterAt m n D0 u v ≤ filterAt m n D0 u' v' ↔ D_square m n u v ≤ D_square m n u' v' := by
  have hpos := two_mul_sq_pos D0 hD
  unfold filterAt
  rw [sub_le_sub_iff_left, Real.exp_le_exp, div_le_div_iff_of_pos_right hpos, neg_le_neg_iff]
  exact_mod_cast Iff.rfl

theorem filterAt_lt_iff (m n : Int) (D0 : ℝ) (hD : D0 ≠ 0) (u v u' v' : Nat) :
    filterAt m n D0 u v < filterAt m n D0 u' v' ↔ D_square m n u v < D_square m n u' v' := by
  rw [lt_iff_not_le, lt_iff_not_le, filterAt_le_iff m n D0 hD]

theorem filterAt_nonneg (m n : Int) (D0 : ℝ) (u v : Nat) : 0 ≤ filterAt m n D0 u v := by
  unfold filterAt
  have h1 : (0 : ℝ) ≤ (D_square m n u v : ℝ) := by exact_mod_cast D_square_nonneg m n u v
  have h2 : (0 : ℝ) ≤ 2 * D0 * D0 := by nlinarith [mul_self_nonneg D0]
  have h3 : -(D_square m n u v : ℝ) / (2 * D0 * D0) ≤ 0 := by
    rw [neg_div]
    exact neg_nonpos.mpr (div_nonneg h1 h2)
  have := Real.exp_le_one_iff.mpr h3
  linarith

theorem filterAt_eq_zero_iff (m n : Int) (D0 : ℝ) (hD : D0 ≠ 0) (u v : Nat) :
    filterAt m n D0 u v = 0 ↔ D_square m n u v = 0 := by
  have hpos := two_mul_sq_pos D0 hD
  unfold filterAt
  rw [sub_eq_zero, eq_comm, Real.exp_eq_one_iff, div_eq_zero_iff, neg_eq_zero]
  constructor
  · rintro (h | h)
    · exact_mod_cast h
    · exact absurd h hpos.ne'
  · intro h
    left
    exact_mod_cast h

theorem filterAt_pos_iff (m n : Int) (D0 : ℝ) (hD : D0 ≠ 0) (u v : Nat) :
    0 < filterAt m n D0 u v ↔ D_square m n u v ≠ 0 := by
  constructor
  · intro h h0
    rw [(filterAt_eq_zero_iff m n D0 hD u v).mpr h0] at h
    exact lt_irrefl _ h
  · intro h
    refine lt_of_le_of_ne (filterAt_nonneg m n D0 u v) (Ne.symm ?_)
    intro h0
    exact h ((filterAt_eq_zero_iff m n D0 hD u v).mp h0)

theorem filterAt_anti_cutoff (m n : Int) (u v : Nat) (D0 D0' : ℝ) (h0 : 0 < D0)
    (h : D0 ≤ D0') : filterAt m n D0' u v ≤ filterAt m n D0 u v := by
  have hd : (0 : ℝ) ≤ (D_square m n u v : ℝ) := by exact_mod_cast D_square_nonneg m n u v
  have h1 : 0 < 2 * D0 * D0 := two_mul_sq_pos D0 h0.ne'
  have h2 : 2 * D0 * D0 ≤ 2 * D0' * D0' := by nlinarith
  unfold filterAt
  rw [sub_le_sub_iff_left, Real.exp_le_exp, neg_div, neg_div, neg_le_neg_iff]
  exact div_le_div_of_nonneg_left hd h1 h2

theorem filterAt_strictAnti_cutoff (m n : Int) (u v : Nat) (D0 D0' : ℝ) (h0 : 0 < D0)
    (h : D0 < D0') (hd : D_square m n u v ≠ 0) :
    filterAt m n D0' u v < filterAt m n D0 u v := by
  have hd1 : (0 : ℝ) < (D_square m n u v : ℝ) := by
    exact_mod_cast lt_of_le_of_ne (D_square_nonneg m n u v) (Ne.symm hd)
  have h1 : 0 < 2 * D0 * D0 := two_mul_sq_pos D0 h0.ne'
  have h2 : 2 * D0 * D0 < 2 * D0' * D0' := by nlinarith
  unfold filterAt
  rw [sub_lt_sub_iff_left, Real.exp_lt_exp, neg_div, neg_div, neg_lt_neg_iff]
  exact div_lt_div_of_pos_left hd1 h1 h2

theorem maskedSpectrum_apply (p : Mat ℝ) (m n : Int) (D0 : ℝ) (u : Fin p.rows)
    (v : Fin p.cols) :
    maskedSpectrum p m n D0 u v =
      spectrum p u v * (⟨filterAt m n D0 u.val v.val, filterAt m n D0 u.val v.val⟩ : ℂ) :=
  rfl

/-! ## Claims on the mask -/

/-- C3 (the code at the 64 x 64, D0 = 30 scenario): the padded size is 64 x 64, the gain
of the zero-frequency bin (0,0) of the un-shifted spectrum is strictly larger than the gain
of the bins (0,2) and (0,62) that carry the sinusoid, and no bin has a larger gain than the
zero-frequency bin. -/
theorem highpass_dc_gain :
    getOptimalDFTSize 64 = 64 ∧
    filterAt 64 64 30 0 2 < filterAt 64 64 30 0 0 ∧
    filterAt 64 64 30 0 62 < filterAt 64 64 30 0 0 ∧
    ∀ u v : Fin 64, filterAt 64 64 30 u.val v.val ≤ filterAt 64 64 30 0 0 := by
  refine ⟨by decide, ?_, ?_, ?_⟩
  · rw [filterAt_lt_iff _ _ _ (by norm_num)]
    decide
  · rw [filterAt_lt_iff _ _ _ (by norm_num)]
    decide
  · intro u v
    rw [filterAt_le_iff _ _ _ (by norm_num)]
    have hu := u.isLt
    have hv := v.isLt
    have h32 : Int.tdiv 64 2 = 32 := by decide
    unfold D_square
    rw [h32]
    have h1 : ((u.val : Int) - 32) ^ 2 ≤ 32 ^ 2 := by
      apply sq_le_sq'
      · omega
      · omega
    have h2 : ((v.val : Int) - 32) ^ 2 ≤ 32 ^ 2 := by
      apply sq_le_sq'
      · omega
      · omega
    simp only [Nat.cast_zero, zero_sub, even_two, Even.neg_pow]
    omega

theorem filterAt_tendsto_one (m n : Int) (u v : Nat) (hd : D_square m n u v ≠ 0) :
    Filter.Tendsto (fun D0 : ℝ => filterAt m n D0 u v) (nhdsWithin 0 (Set.Ioi 0)) (nhds 1) := by
  have hd1 : (0 : ℝ) < (D_square m n u v : ℝ) := by
    exact_mod_cast lt_of_le_of_ne (D_square_nonneg m n u v) (Ne.symm hd)
  have h1 : Filter.Tendsto (fun x : ℝ => 2 * x * x) (nhdsWithin 0 (Set.Ioi 0))
      (nhdsWithin 0 (Set.Ioi 0)) := by
    apply tendsto_nhdsWithin_iff.mpr
    constructor
    · have hc : Continuous (fun x : ℝ => 2 * x * x) := by continuity
      have h0 := hc.tendsto 0
      simp only [mul_zero] at h0
      exact h0.mono_left nhdsWithin_le_nhds
    · filter_upwards [self_mem_nhdsWithin] with x hx
      have hx0 : (0 : ℝ) < x := hx
      show (0 : ℝ) < 2 * x * x
      positivity
  have h2 := tendsto_inv_zero_atTop.comp h1
  have h3 := h2.const_mul_atTop hd1
  have h4 := Real.tendsto_exp_neg_atTop_nhds_zero.comp h3
  have h5 := (tendsto_const_nhds (x := (1 : ℝ))).sub h4
  rw [sub_zero] at h5
  refine h5.congr ?_
  intro x
  simp only [filterAt, Function.comp, div_eq_mul_inv, neg_mul]

/-- C10 (the code for a padded size with M ≥ 2): the bin that stays blocked for every
D0 > 0 is (M/2, N/2), which is not the zero-frequency bin (0,0); its gain does not tend to
1 as D0 tends to 0 from above, while the gain of the zero-frequency bin (0,0) is strictly
positive for every D0 > 0 and tends to 1. -/
theorem small_cutoff_blocked_bin (M N : Nat) (hM : 2 ≤ M) :
    (M / 2, N / 2) ≠ (0, 0) ∧
    (∀ D0 : ℝ, 0 < D0 → filterAt M N D0 (M / 2) (N / 2) = 0) ∧
    (∀ D0 : ℝ, 0 < D0 → 0 < filterAt M N D0 0 0) ∧
    Filter.Tendsto (fun D0 : ℝ => filterAt M N D0 0 0) (nhdsWithin 0 (Set.Ioi 0)) (nhds 1) ∧
    ¬ Filter.Tendsto (fun D0 : ℝ => filterAt M N D0 (M / 2) (N / 2))
      (nhdsWithin 0 (Set.Ioi 0)) (nhds 1) := by
  have hne : (M / 2, N / 2) ≠ (0, 0) := by
    intro h
    rw [Prod.mk.injEq] at h
    omega
  have hd : D_square M N 0 0 ≠ 0 := by
    intro h
    exact hne ((D_square_eq_zero_iff M N 0 0).mp h).symm
  have hzero : ∀ D0 : ℝ, 0 < D0 → filterAt M N D0 (M / 2) (N / 2) = 0 := by
    intro D0 hD
    rw [filterAt_eq_zero_iff _ _ _ hD.ne', D_square_eq_zero_iff]
  refine ⟨hne, hzero, ?_, filterAt_tendsto_one M N 0 0 hd, ?_⟩
  · intro D0 hD
    exact (filterAt_pos_iff _ _ _ hD.ne' 0 0).mpr hd
  · intro hlim
    have h0 : Filter.Tendsto (fun D0 : ℝ => filterAt M N D0 (M / 2) (N / 2))
        (nhdsWithin 0 (Set.Ioi 0)) (nhds 0) := by
      refine (tendsto_const_nhds (x := (0 : ℝ))).congr' ?_
      filter_upwards [self_mem_nhdsWithin] with x hx
      exact (hzero x hx).symm
    exact zero_ne_one (tendsto_nhds_unique h0 hlim)

/-- C10 (witness): the 2 x 2 padded size, whose blocked bin is (1, 1). -/
theorem small_cutoff_blocked_bin_witness :
    2 ≤ 2 ∧
    ((2 / 2, 2 / 2) ≠ (0, 0) ∧
    (∀ D0 : ℝ, 0 < D0 → filterAt (2 : Nat) (2 : Nat) D0 (2 / 2) (2 / 2) = 0) ∧
    (∀ D0 : ℝ, 0 < D0 → 0 < filterAt (2 : Nat) (2 : Nat) D0 0 0) ∧
    Filter.Tendsto (fun D0 : ℝ => filterAt (2 : Nat) (2 : Nat) D0 0 0)
      (nhdsWithin 0 (Set.Ioi 0)) (nhds 1) ∧
    ¬ Filter.Tendsto (fun D0 : ℝ => filterAt (2 : Nat) (2 : Nat) D0 (2 / 2) (2 / 2))
      (nhdsWithin 0 (Set.Ioi 0)) (nhds 1)) :=
  ⟨le_rfl, small_cutoff_blocked_bin 2 2 le_rfl⟩

/-! ## The transform at small sizes -/

theorem merge_zero_im {R C : Nat} (re : Fin R → Fin C → ℝ) (i : Fin R) (j : Fin C) :
    merge re (fun _ _ => 0) i j = ((re i j : ℝ) : ℂ) :=
  rfl

theorem padded_impulseGrid (t : ℝ) :
    ∃ d : Fin 2 → Fin 2 → ℝ, padded (impulseGrid t) = some (Mat.mk 2 2 d) ∧
      d 0 0 = t ∧ d 0 1 = 0 ∧ d 1 0 = 0 ∧ d 1 1 = 0 := by
  have hlt : ((2 : Nat) : Int) < optimalDFTSizeTabLast := by decide
  have hopt : getOptimalDFTSize ((2 : Nat) : Int) = 2 := by decide
  obtain ⟨p, hp, h1, h2, hdata⟩ := padded_eq_some (impulseGrid t) hlt hlt
  obtain ⟨R, C, d⟩ := p
  have hR : R = 2 := by
    have h1' : (R : Int) = getOptimalDFTSize ((2 : Nat) : Int) := h1
    rw [hopt] at h1'
    exact_mod_cast h1'
  have hC : C = 2 := by
    have h2' : (C : Int) = getOptimalDFTSize ((2 : Nat) : Int) := h2
    rw [hopt] at h2'
    exact_mod_cast h2'
  subst hR hC
  refine ⟨d, hp, ?_, ?_, ?_, ?_⟩
  · simpa [impulseGrid] using hdata 0 0
  · simpa [impulseGrid] using hdata 0 1
  · simpa [impulseGrid] using hdata 1 0
  · simpa [impulseGrid] using hdata 1 1

theorem spectrum_impulse (d : Fin 2 → Fin 2 → ℝ) (t : ℝ) (d00 : d 0 0 = t) (d01 : d 0 1 = 0)
    (d10 : d 1 0 = 0) (d11 : d 1 1 = 0) (u v : Fin 2) :
    spectrum (Mat.mk 2 2 d) u v = (t : ℂ) := by
  unfold spectrum dft
  simp only [merge_zero_im]
  rw [Fin.sum_univ_two, Fin.sum_univ_two, Fin.sum_univ_two]
  simp [d00, d01, d10, d11]

theorem div_le_one_sub_exp_neg (x : ℝ) (hx : 0 ≤ x) : x / (1 + x) ≤ 1 - Real.exp (-x) := by
  have h1 : 0 < 1 + x := by linarith
  have h2 : 1 + x ≤ Real.exp x := by linarith [Real.add_one_le_exp x]
  have h3 : Real.exp (-x) ≤ (1 + x)⁻¹ := by
    rw [Real.exp_neg]
    exact inv_anti₀ h1 h2
  have h4 : x / (1 + x) = 1 - (1 + x)⁻¹ := by
    field_simp
  rw [h4]
  linarith

theorem filterAt_two_zero_one_ge : (1 : ℝ) / 1801 ≤ filterAt 2 2 30 0 1 := by
  have hd : D_square 2 2 0 1 = 1 := by decide
  have h := div_le_one_sub_exp_neg (1 / 1800) (by norm_num)
  have he : -((D_square 2 2 0 1 : Int) : ℝ) / (2 * 30 * 30) = -(1 / 1800) := by
    rw [hd]
    norm_num
  unfold filterAt
  rw [he]
  refine le_trans ?_ h
  norm_num

/-! ## Rounding lemmas -/

theorem roundHalfEven_floor_le (t : ℝ) : ⌊t⌋ ≤ roundHalfEven t := by
  unfold roundHalfEven
  split_ifs <;> omega

theorem roundHalfEven_le_floor_succ (t : ℝ) : roundHalfEven t ≤ ⌊t⌋ + 1 := by
  unfold roundHalfEven
  split_ifs <;> omega

theorem roundHalfEven_intCast (k : ℤ) : roundHalfEven (k : ℝ) = k := by
  unfold roundHalfEven
  rw [Int.floor_intCast, sub_self, if_pos (by norm_num)]

theorem roundHalfEven_mono {t t' : ℝ} (h : t ≤ t') : roundHalfEven t ≤ roundHalfEven t' := by
  have hf : ⌊t⌋ ≤ ⌊t'⌋ := Int.floor_le_floor h
  rcases lt_or_eq_of_le hf with hlt | heq
  · have h1 := roundHalfEven_le_floor_succ t
    have h2 := roundHalfEven_floor_le t'
    omega
  · unfold roundHalfEven
    rw [← heq]
    have hfr : t - ⌊t⌋ ≤ t' - ⌊t⌋ := by linarith
    by_cases c1 : t - ⌊t⌋ < 1 / 2
    · rw [if_pos c1]
      split_ifs <;> omega
    · rw [if_neg c1]
      have c1' : ¬ t' - ⌊t⌋ < 1 / 2 := by
        intro hc
        exact c1 (lt_of_le_of_lt hfr hc)
      rw [if_neg c1']
      by_cases c2 : 1 / 2 < t - ⌊t⌋
      · have c2' : 1 / 2 < t' - ⌊t⌋ := lt_of_lt_of_le c2 hfr
        rw [if_pos c2, if_pos c2']
      · rw [if_neg c2]
        split_ifs <;> omega

theorem roundHalfEven_le_of_le {t : ℝ} {k : ℤ} (h : t ≤ k) : roundHalfEven t ≤ k := by
  have := roundHalfEven_mono h
  rwa [roundHalfEven_intCast] at this

theorem le_roundHalfEven_of_le {t : ℝ} {k : ℤ} (h : (k : ℝ) ≤ t) : k ≤ roundHalfEven t := by
  have := roundHalfEven_mono h
  rwa [roundHalfEven_intCast] at this

theorem two_zpow_pos (k : ℤ) : (0 : ℝ) < 2 ^ k := zpow_pos (by norm_num) k

theorem two_zpow_log_le (a : ℝ) (ha : 0 < a) : (2 : ℝ) ^ Int.log 2 a ≤ a := by
  have := Int.zpow_log_le_self (b := 2) (by norm_num) ha
  simpa using this

theorem lt_two_zpow_log_succ (a : ℝ) : a < (2 : ℝ) ^ (Int.log 2 a + 1) := by
  have := Int.lt_zpow_succ_log_self (b := 2) (by norm_num) a
  simpa using this

theorem log_lt_of_lt_two_zpow (a : ℝ) (k : ℤ) (ha : 0 < a) (h : a < 2 ^ k) :
    Int.log 2 a < k := by
  have := (Int.lt_zpow_iff_log_lt (b := 2) (by norm_num) (x := k) ha).mp (by simpa using h)
  exact this

theorem le_log_of_two_zpow_le (a : ℝ) (k : ℤ) (ha : 0 < a) (h : 2 ^ k ≤ a) :
    k ≤ Int.log 2 a := by
  have := (Int.zpow_le_iff_le_log (b := 2) (by norm_num) (x := k) ha).mp (by simpa using h)
  exact this

theorem roundMagnitude_zero (p : Nat) (emin : Int) : roundMagnitude p emin 0 = 0 := by
  unfold roundMagnitude
  rw [zero_div]
  have : roundHalfEven (0 : ℝ) = 0 := by
    have := roundHalfEven_intCast 0
    simpa using this
  rw [this]
  simp

theorem roundMagnitude_nonneg (p : Nat) (emin : Int) (a : ℝ) (ha : 0 ≤ a) :
    0 ≤ roundMagnitude p emin a := by
  unfold roundMagnitude
  apply mul_nonneg _ (two_zpow_pos _).le
  have h : ((0 : ℤ) : ℝ) ≤ a / 2 ^ ulpExponent p emin a := by
    simpa using div_nonneg ha (two_zpow_pos _).le
  exact_mod_cast le_roundHalfEven_of_le h

/-- A multiple of the unit in the last place above `a` is above the rounded `a`. -/
theorem roundMagnitude_le_of_le (p : Nat) (emin : Int) (a : ℝ) (k : ℤ)
    (h : a ≤ k * 2 ^ ulpExponent p emin a) :
    roundMagnitude p emin a ≤ k * 2 ^ ulpExponent p emin a := by
  unfold roundMagnitude
  apply mul_le_mul_of_nonneg_right _ (two_zpow_pos _).le
  have : a / 2 ^ ulpExponent p emin a ≤ k := by
    rwa [div_le_iff₀ (two_zpow_pos _)]
  exact_mod_cast roundHalfEven_le_of_le this

/-- A multiple of the unit in the last place below `a` is below the rounded `a`. -/
theorem le_roundMagnitude_of_le (p : Nat) (emin : Int) (a : ℝ) (k : ℤ)
    (h : (k : ℝ) * 2 ^ ulpExponent p emin a ≤ a) :
    (k : ℝ) * 2 ^ ulpExponent p emin a ≤ roundMagnitude p emin a := by
  unfold roundMagnitude
  apply mul_le_mul_of_nonneg_right _ (two_zpow_pos _).le
  have : (k : ℝ) ≤ a / 2 ^ ulpExponent p emin a := by
    rwa [le_div_iff₀ (two_zpow_pos _)]
  exact_mod_cast le_roundHalfEven_of_le this

/-- A power of two with exponent at least the exponent of the unit is an integer multiple
of the unit. -/
theorem two_zpow_eq_mul (k u : ℤ) (h : u ≤ k) :
    (2 : ℝ) ^ k = (((2 : ℤ) ^ (k - u).toNat : ℤ) : ℝ) * 2 ^ u := by
  have h1 : ((k - u).toNat : ℤ) = k - u := Int.toNat_of_nonneg (by omega)
  push_cast
  rw [← zpow_natCast, h1, ← zpow_add₀ (by norm_num : (2 : ℝ) ≠ 0)]
  congr 1
  omega

theorem roundMagnitude_le_two_zpow (p : Nat) (emin : Int) (a : ℝ) (k : ℤ)
    (hk : ulpExponent p emin a ≤ k) (h : a ≤ 2 ^ k) : roundMagnitude p emin a ≤ 2 ^ k := by
  rw [two_zpow_eq_mul k _ hk] at h ⊢
  exact roundMagnitude_le_of_le p emin a _ h

theorem two_zpow_le_roundMagnitude (p : Nat) (emin : Int) (a : ℝ) (k : ℤ)
    (hk : ulpExponent p emin a ≤ k) (h : 2 ^ k ≤ a) : 2 ^ k ≤ roundMagnitude p emin a := by
  rw [two_zpow_eq_mul k _ hk] at h ⊢
  exact le_roundMagnitude_of_le p emin a _ h

theorem ulpExponent_mono (p : Nat) (emin : Int) {a b : ℝ} (ha : 0 < a) (h : a ≤ b) :
    ulpExponent p emin a ≤ ulpExponent p emin b := by
  unfold ulpExponent
  have := Int.log_mono_right (b := 2) ha h
  omega

theorem roundMagnitude_mono (p : Nat) (hp : 1 ≤ p) (emin : Int) {a b : ℝ} (ha : 0 ≤ a)
    (h : a ≤ b) : roundMagnitude p emin a ≤ roundMagnitude p emin b := by
  rcases eq_or_lt_of_le ha with h0 | hpos
  · rw [← h0, roundMagnitude_zero]
    exact roundMagnitude_nonneg p emin b (le_trans ha h)
  · have hb : 0 < b := lt_of_lt_of_le hpos h
    have hu := ulpExponent_mono p emin hpos h
    rcases eq_or_lt_of_le hu with heq | hlt
    · unfold roundMagnitude
      rw [← heq]
      apply mul_le_mul_of_nonneg_right _ (two_zpow_pos _).le
      have : a / 2 ^ ulpExponent p emin a ≤ b / 2 ^ ulpExponent p emin a :=
        div_le_div_of_nonneg_right h (two_zpow_pos _).le
      exact_mod_cast roundHalfEven_mono this
    · have hlog : Int.log 2 a < Int.log 2 b ∧ emin < Int.log 2 b := by
        unfold ulpExponent at hlt
        omega
      have h1 : a ≤ 2 ^ Int.log 2 b := by
        have := lt_two_zpow_log_succ a
        have h2 : (2 : ℝ) ^ (Int.log 2 a + 1) ≤ 2 ^ Int.log 2 b :=
          zpow_le_zpow_right₀ (by norm_num) (by omega)
        linarith
      have h2 : (2 : ℝ) ^ Int.log 2 b ≤ b := two_zpow_log_le b hb
      have hp' : (1 : ℤ) ≤ (p : ℤ) := by exact_mod_cast hp
      have hk1 : ulpExponent p emin a ≤ Int.log 2 b := by
        unfold ulpExponent
        omega
      have hk2 : ulpExponent p emin b ≤ Int.log 2 b := by
        unfold ulpExponent
        omega
      exact le_trans (roundMagnitude_le_two_zpow p emin a _ hk1 h1)
        (two_zpow_le_roundMagnitude p emin b _ hk2 h2)

theorem roundToFormat_zero (p : Nat) (emin : Int) : roundToFormat p emin 0 = 0 := by
  unfold roundToFormat
  rw [if_neg (lt_irrefl 0), roundMagnitude_zero]

theorem roundToFormat_of_nonneg (p : Nat) (emin : Int) (x : ℝ) (hx : 0 ≤ x) :
    roundToFormat p emin x = roundMagnitude p emin x := by
  unfold roundToFormat
  rw [if_neg (not_lt.mpr hx)]

theorem roundToFormat_neg (p : Nat) (emin : Int) (x : ℝ) :
    roundToFormat p emin (-x) = -roundToFormat p emin x := by
  unfold roundToFormat
  rcases lt_trichotomy x 0 with h | h | h
  · rw [if_neg (by linarith), if_pos h, neg_neg]
  · subst h
    simp [roundMagnitude_zero]
  · rw [if_pos (by linarith), if_neg (by linarith), neg_neg]

theorem roundToFormat_nonneg (p : Nat) (emin : Int) (x : ℝ) (hx : 0 ≤ x) :
    0 ≤ roundToFormat p emin x := by
  rw [roundToFormat_of_nonneg p emin x hx]
  exact roundMagnitude_nonneg p emin x hx

theorem roundToFormat_mono (p : Nat) (hp : 1 ≤ p) (emin : Int) {x y : ℝ} (h : x ≤ y) :
    roundToFormat p emin x ≤ roundToFormat p emin y := by
  rcases lt_or_le x 0 with hx | hx
  · rcases lt_or_le y 0 with hy | hy
    · unfold roundToFormat
      rw [if_pos hx, if_pos hy]
      exact neg_le_neg (roundMagnitude_mono p hp emin (by linarith) (by linarith))
    · have h1 : roundToFormat p emin x ≤ 0 := by
        unfold roundToFormat
        rw [if_pos hx]
        exact neg_nonpos.mpr (roundMagnitude_nonneg p emin _ (by linarith))
      exact le_trans h1 (roundToFormat_nonneg p emin y hy)
  · rw [roundToFormat_of_nonneg p emin x hx, roundToFormat_of_nonneg p emin y (le_trans hx h)]
    exact roundMagnitude_mono p hp emin hx h

/-- A number `k * 2^e` with `0 ≤ k < 2^p` and `e` at least the exponent of the least
subnormal is a number of the format: rounding does not change it. -/
theorem roundMagnitude_of_representable (p : Nat) (emin : Int) (k : ℕ) (e : ℤ)
    (hk : k < 2 ^ p) (he : emin - ((p : Int) - 1) ≤ e) :
    roundMagnitude p emin ((k : ℝ) * 2 ^ e) = (k : ℝ) * 2 ^ e := by
  rcases Nat.eq_zero_or_pos k with h0 | hpos
  · subst h0
    simp [roundMagnitude_zero]
  · have hapos : (0 : ℝ) < (k : ℝ) * 2 ^ e :=
      mul_pos (by exact_mod_cast hpos) (two_zpow_pos e)
    have hlt : (k : ℝ) * 2 ^ e < 2 ^ ((p : ℤ) + e) := by
      rw [zpow_add₀ (by norm_num : (2 : ℝ) ≠ 0), zpow_natCast]
      apply mul_lt_mul_of_pos_right _ (two_zpow_pos e)
      exact_mod_cast hk
    have hlog := log_lt_of_lt_two_zpow _ _ hapos hlt
    have hu : ulpExponent p emin ((k : ℝ) * 2 ^ e) ≤ e := by
      unfold ulpExponent
      omega
    have heq : (k : ℝ) * 2 ^ e =
        (((k : ℤ) * (2 : ℤ) ^ (e - ulpExponent p emin ((k : ℝ) * 2 ^ e)).toNat : ℤ) : ℝ) *
          2 ^ ulpExponent p emin ((k : ℝ) * 2 ^ e) := by
      have h2 := two_zpow_eq_mul e _ hu
      push_cast at h2 ⊢
      rw [mul_assoc, ← h2]
    apply le_antisymm
    · have := roundMagnitude_le_of_le p emin ((k : ℝ) * 2 ^ e) _ (le_of_eq heq)
      rwa [← heq] at this
    · have := le_roundMagnitude_of_le p emin ((k : ℝ) * 2 ^ e) _ (le_of_eq heq.symm)
      rwa [← heq] at this

theorem roundToFormat_of_representable (p : Nat) (emin : Int) (k : ℕ) (e : ℤ)
    (hk : k < 2 ^ p) (he : emin - ((p : Int) - 1) ≤ e) :
    roundToFormat p emin ((k : ℝ) * 2 ^ e) = (k : ℝ) * 2 ^ e := by
  rw [roundToFormat_of_nonneg _ _ _ (mul_nonneg (Nat.cast_nonneg k) (two_zpow_pos e).le)]
  exact roundMagnitude_of_representable p emin k e hk he

/-- Underflow: a magnitude below half of the least subnormal is rounded to 0. -/
theorem roundMagnitude_of_lt (p : Nat) (emin : Int) (a : ℝ) (ha : 0 ≤ a)
    (h : a < 2 ^ (emin - (p : Int))) : roundMagnitude p emin a = 0 := by
  rcases eq_or_lt_of_le ha with h0 | hpos
  · rw [← h0, roundMagnitude_zero]
  · have hlog := log_lt_of_lt_two_zpow a _ hpos h
    have hu : ulpExponent p emin a = emin - (p : Int) + 1 := by
      unfold ulpExponent
      omega
    unfold roundMagnitude
    rw [hu]
    have ht : a / 2 ^ (emin - (p : Int) + 1) < 1 / 2 := by
      rw [div_lt_iff₀ (two_zpow_pos _), zpow_add₀ (by norm_num : (2 : ℝ) ≠ 0)]
      simp only [zpow_one]
      linarith
    have ht0 : 0 ≤ a / 2 ^ (emin - (p : Int) + 1) := div_nonneg ha (two_zpow_pos _).le
    have hfl : ⌊a / 2 ^ (emin - (p : Int) + 1)⌋ = 0 := by
      rw [Int.floor_eq_iff]
      constructor
      · simpa using ht0
      · simp only [Int.cast_zero, zero_add]
        linarith
    have : roundHalfEven (a / 2 ^ (emin - (p : Int) + 1)) = 0 := by
      unfold roundHalfEven
      rw [hfl, if_pos (by simpa using ht)]
    rw [this]
    simp

/-- Just below 1: a number `x` with `1 - 2^-(p+1) < x ≤ 1` is rounded to 1. -/
theorem roundMagnitude_near_one (p : Nat) (hp : 1 ≤ p) (emin : Int) (hemin : emin ≤ -1)
    (x : ℝ) (h1 : 1 - 2 ^ (-((p : Int) + 1)) < x) (h2 : x ≤ 1) :
    roundMagnitude p emin x = 1 := by
  have hp' : (1 : ℤ) ≤ (p : ℤ) := by exact_mod_cast hp
  have hsmall : (2 : ℝ) ^ (-((p : Int) + 1)) ≤ 1 / 4 := by
    have h3 : (2 : ℝ) ^ (-((p : Int) + 1)) ≤ 2 ^ (-2 : ℤ) :=
      zpow_le_zpow_right₀ (by norm_num) (by omega)
    have hq : (2 : ℝ) ^ (-2 : ℤ) = 1 / 4 := by norm_num
    exact h3.trans (le_of_eq hq)
  have hx : 1 / 2 < x := by linarith
  have hone : (1 : ℝ) = ((1 : ℕ) : ℝ) * 2 ^ (0 : ℤ) := by simp
  rcases eq_or_lt_of_le h2 with heq | hlt
  · rw [heq, hone]
    exact roundMagnitude_of_representable p emin 1 0 (Nat.one_lt_two_pow (by omega)) (by omega)
  · have hlog1 : Int.log 2 x < 0 := log_lt_of_lt_two_zpow x 0 (by linarith) (by simpa using hlt)
    have hlog2 : -1 ≤ Int.log 2 x :=
      le_log_of_two_zpow_le x (-1) (by linarith) (by norm_num; linarith)
    have hu : ulpExponent p emin x = -(p : Int) := by
      unfold ulpExponent
      omega
    apply le_antisymm
    · have := roundMagnitude_le_two_zpow p emin x 0 (by rw [hu]; omega) (by simpa using h2)
      simpa using this
    · unfold roundMagnitude
      rw [hu]
      have hpowp : (2 : ℝ) ^ (-(p : Int)) * 2 ^ (p : ℕ) = 1 := by
        rw [← zpow_natCast, ← zpow_add₀ (by norm_num : (2 : ℝ) ≠ 0)]
        simp
      have ht : ((2 : ℝ) ^ (p : ℕ) - 1 / 2) < x / 2 ^ (-(p : Int)) := by
        rw [lt_div_iff₀ (two_zpow_pos _)]
        have h3 : (2 : ℝ) ^ (-((p : Int) + 1)) = 2 ^ (-(p : Int)) * (1 / 2) := by
          rw [neg_add, zpow_add₀ (by norm_num : (2 : ℝ) ≠ 0)]
          norm_num
        rw [h3] at h1
        have : ((2 : ℝ) ^ (p : ℕ) - 1 / 2) * 2 ^ (-(p : Int)) =
            1 - 2 ^ (-(p : Int)) * (1 / 2) := by
          rw [sub_mul, mul_comm ((2 : ℝ) ^ (p : ℕ)), hpowp]
          ring
        rw [this]
        exact h1
      have hfl : ((2 : ℤ) ^ (p : ℕ) - 1 : ℤ) ≤ ⌊x / 2 ^ (-(p : Int))⌋ := by
        rw [Int.le_floor]
        push_cast
        linarith
      have hrhe : ((2 : ℤ) ^ (p : ℕ) : ℤ) ≤ roundHalfEven (x / 2 ^ (-(p : Int))) := by
        have hfl2 := roundHalfEven_floor_le (x / 2 ^ (-(p : Int)))
        rcases lt_or_eq_of_le hfl with hl | he
        · omega
        · unfold roundHalfEven
          have hfrac : 1 / 2 < x / 2 ^ (-(p : Int)) - ⌊x / 2 ^ (-(p : Int))⌋ := by
            rw [← he]
            push_cast
            linarith
          rw [if_neg (by linarith), if_pos hfrac, ← he]
          omega
      have : ((2 : ℝ) ^ (p : ℕ)) ≤ (roundHalfEven (x / 2 ^ (-(p : Int))) : ℝ) := by
        exact_mod_cast hrhe
      calc (1 : ℝ) = 2 ^ (p : ℕ) * 2 ^ (-(p : Int)) := by rw [mul_comm, hpowp]
        _ ≤ _ := mul_le_mul_of_nonneg_right this (two_zpow_pos _).le


/-! ## The two formats -/

theorem roundDouble_mono {x y : ℝ} (h : x ≤ y) : roundDouble x ≤ roundDouble y :=
  roundToFormat_mono 53 (by norm_num) _ h

theorem roundFloat_mono {x y : ℝ} (h : x ≤ y) : roundFloat x ≤ roundFloat y :=
  roundToFormat_mono 24 (by norm_num) _ h

theorem roundDouble_zero : roundDouble 0 = 0 := roundToFormat_zero _ _

theorem roundFloat_zero : roundFloat 0 = 0 := roundToFormat_zero _ _

theorem roundDouble_neg (x : ℝ) : roundDouble (-x) = -roundDouble x := roundToFormat_neg _ _ x

/-- Every `k * 2^e` with `k < 2^53` and `e ≥ -1074` is a `double`. -/
theorem roundDouble_of_representable (k : ℕ) (e : ℤ) (hk : k < 2 ^ 53) (he : -1074 ≤ e) :
    roundDouble ((k : ℝ) * 2 ^ e) = (k : ℝ) * 2 ^ e :=
  roundToFormat_of_representable 53 (-1022) k e hk (by norm_num; omega)

/-- Every `k * 2^e` with `k < 2^24` and `e ≥ -149` is a `float`. -/
theorem roundFloat_of_representable (k : ℕ) (e : ℤ) (hk : k < 2 ^ 24) (he : -149 ≤ e) :
    roundFloat ((k : ℝ) * 2 ^ e) = (k : ℝ) * 2 ^ e :=
  roundToFormat_of_representable 24 (-126) k e hk (by norm_num; omega)

theorem roundDouble_natCast (k : ℕ) (hk : k < 2 ^ 53) : roundDouble (k : ℝ) = k := by
  have := roundDouble_of_representable k 0 hk (by norm_num)
  simpa using this

theorem roundDouble_two_zpow (e : ℤ) (he : -1074 ≤ e) : roundDouble (2 ^ e) = 2 ^ e := by
  have := roundDouble_of_representable 1 e (by norm_num) he
  simpa using this

theorem roundFloat_two_zpow (e : ℤ) (he : -149 ≤ e) : roundFloat (2 ^ e) = 2 ^ e := by
  have := roundFloat_of_representable 1 e (by norm_num) he
  simpa using this

theorem roundDouble_one : roundDouble 1 = 1 := by
  have := roundDouble_two_zpow 0 (by norm_num)
  simpa using this

theorem roundFloat_one : roundFloat 1 = 1 := by
  have := roundFloat_two_zpow 0 (by norm_num)
  simpa using this

theorem roundDouble_nonneg {x : ℝ} (h : 0 ≤ x) : 0 ≤ roundDouble x :=
  roundToFormat_nonneg _ _ x h

theorem roundDouble_of_lt {x : ℝ} (h0 : 0 ≤ x) (h : x < 2 ^ (-1075 : ℤ)) : roundDouble x = 0 := by
  unfold roundDouble
  rw [roundToFormat_of_nonneg _ _ _ h0]
  have e : ((-1022 : ℤ) - ((53 : ℕ) : ℤ)) = -1075 := by norm_num
  exact roundMagnitude_of_lt 53 (-1022) x h0 (by rw [e]; exact h)

theorem roundFloat_near_one {x : ℝ} (h1 : 1 - 2 ^ (-25 : ℤ) < x) (h2 : x ≤ 1) :
    roundFloat x = 1 := by
  have hx : 0 ≤ x := by
    have : (2 : ℝ) ^ (-25 : ℤ) ≤ 1 := zpow_le_one_of_nonpos₀ (by norm_num) (by norm_num)
    linarith
  unfold roundFloat
  rw [roundToFormat_of_nonneg _ _ _ hx]
  have e : -((((24 : ℕ) : ℤ)) + 1) = -25 := by norm_num
  exact roundMagnitude_near_one 24 (by norm_num) (-126) (by norm_num) x (by rw [e]; exact h1) h2

/-! ## The mask in IEEE 754 arithmetic -/

theorem D_squareIEEE_nonneg (m n : Int) (u v : Nat) : 0 ≤ D_squareIEEE m n u v := by
  unfold D_squareIEEE
  apply roundDouble_nonneg
  apply add_nonneg <;> apply roundDouble_nonneg <;> exact Int.cast_nonneg.mpr (sq_nonneg _)

/-- Squares below `2^52` and their sum are `double` numbers: no rounding in `D_square`. -/
theorem D_squareIEEE_eq (m n : Int) (u v : Nat)
    (hu : ((u : Int) - Int.tdiv m 2) ^ 2 < 2 ^ 52) (hv : ((v : Int) - Int.tdiv n 2) ^ 2 < 2 ^ 52) :
    D_squareIEEE m n u v = (D_square m n u v : ℝ) := by
  unfold D_squareIEEE D_square
  have key : ∀ z : Int, 0 ≤ z → z < 2 ^ 53 → roundDouble (z : ℝ) = z := by
    intro z hz0 hz
    have h := roundDouble_natCast z.toNat (by omega)
    have hc : ((z.toNat : ℕ) : ℝ) = (z : ℝ) := by
      have : ((z.toNat : ℕ) : ℤ) = z := Int.toNat_of_nonneg hz0
      exact_mod_cast this
    rwa [hc] at h
  rw [key _ (sq_nonneg _) (by omega), key _ (sq_nonneg _) (by omega)]
  have := key (((u : Int) - Int.tdiv m 2) ^ 2 + ((v : Int) - Int.tdiv n 2) ^ 2)
    (add_nonneg (sq_nonneg _) (sq_nonneg _)) (by omega)
  push_cast at this ⊢
  exact this

theorem one_le_D_squareIEEE (m n : Int) (u v : Nat) (h : D_square m n u v ≠ 0) :
    1 ≤ D_squareIEEE m n u v := by
  unfold D_squareIEEE
  have key : ∀ z : Int, 0 ≤ z → (z ≠ 0 → 1 ≤ roundDouble (z : ℝ)) ∧ 0 ≤ roundDouble (z : ℝ) := by
    intro z hz
    refine ⟨fun hne => ?_, roundDouble_nonneg (by exact_mod_cast hz)⟩
    have h1 : (1 : ℝ) ≤ (z : ℝ) := by
      have : (1 : ℤ) ≤ z := by omega
      exact_mod_cast this
    have := roundDouble_mono h1
    rwa [roundDouble_one] at this
  have ha := key (((u : Int) - Int.tdiv m 2) ^ 2) (sq_nonneg _)
  have hb := key (((v : Int) - Int.tdiv n 2) ^ 2) (sq_nonneg _)
  have hsum : (1 : ℝ) ≤ roundDouble ((((u : Int) - Int.tdiv m 2) ^ 2 : Int) : ℝ) +
      roundDouble ((((v : Int) - Int.tdiv n 2) ^ 2 : Int) : ℝ) := by
    by_cases hz : ((u : Int) - Int.tdiv m 2) ^ 2 = 0
    · have hnz : ((v : Int) - Int.tdiv n 2) ^ 2 ≠ 0 := by
        intro hv
        apply h
        unfold D_square
        rw [hz, hv]
        rfl
      linarith [ha.2, hb.1 hnz]
    · linarith [ha.1 hz, hb.2]
  have := roundDouble_mono hsum
  rwa [roundDouble_one] at this

theorem D_squareIEEE_of_eq_zero (m n : Int) (u v : Nat) (h : D_square m n u v = 0) :
    D_squareIEEE m n u v = 0 := by
  have h1 : ((u : Int) - Int.tdiv m 2) ^ 2 = 0 ∧ ((v : Int) - Int.tdiv n 2) ^ 2 = 0 := by
    unfold D_square at h
    have := sq_nonneg ((u : Int) - Int.tdiv m 2)
    have := sq_nonneg ((v : Int) - Int.tdiv n 2)
    constructor <;> omega
  unfold D_squareIEEE
  rw [h1.1, h1.2]
  simp [roundDouble_zero]

theorem cutoffDenominator_neg (D0 : ℝ) : cutoffDenominator (-D0) = cutoffDenominator D0 := by
  unfold cutoffDenominator
  have h : 2 * -D0 = -(2 * D0) := by ring
  rw [h, roundDouble_neg, neg_mul_neg]

theorem cutoffDenominator_nonneg (D0 : ℝ) (h : 0 ≤ D0) : 0 ≤ cutoffDenominator D0 := by
  unfold cutoffDenominator
  exact roundDouble_nonneg (mul_nonneg (roundDouble_nonneg (by linarith)) h)

theorem cutoffDenominator_mono {D0 D0' : ℝ} (h0 : 0 ≤ D0) (h : D0 ≤ D0') :
    cutoffDenominator D0 ≤ cutoffDenominator D0' := by
  unfold cutoffDenominator
  apply roundDouble_mono
  have h1 : roundDouble (2 * D0) ≤ roundDouble (2 * D0') := roundDouble_mono (by linarith)
  have h2 : 0 ≤ roundDouble (2 * D0) := roundDouble_nonneg (by linarith)
  exact mul_le_mul h1 h h0 (le_trans h2 h1)

/-- For `D0 ≥ 2^-537` the product `2 * D0 * D0` is not rounded to 0. -/
theorem cutoffDenominator_pos (D0 : ℝ) (h : 2 ^ (-537 : ℤ) ≤ D0) :
    2 ^ (-1073 : ℤ) ≤ cutoffDenominator D0 := by
  have hpos : (0 : ℝ) < 2 ^ (-537 : ℤ) := two_zpow_pos _
  have h1 : (2 : ℝ) ^ (-536 : ℤ) ≤ roundDouble (2 * D0) := by
    have h2 : (2 : ℝ) ^ (-536 : ℤ) ≤ 2 * D0 := by
      have : (2 : ℝ) ^ (-536 : ℤ) = 2 * 2 ^ (-537 : ℤ) := by
        rw [show (-536 : ℤ) = 1 + -537 by norm_num, zpow_add₀ (by norm_num : (2 : ℝ) ≠ 0)]
        simp
      rw [this]
      linarith
    have := roundDouble_mono h2
    rwa [roundDouble_two_zpow _ (by norm_num)] at this
  have h3 : (2 : ℝ) ^ (-1073 : ℤ) ≤ roundDouble (2 * D0) * D0 := by
    have : (2 : ℝ) ^ (-1073 : ℤ) = 2 ^ (-536 : ℤ) * 2 ^ (-537 : ℤ) := by
      rw [← zpow_add₀ (by norm_num : (2 : ℝ) ≠ 0)]
      norm_num
    rw [this]
    exact mul_le_mul h1 h hpos.le (le_trans (two_zpow_pos _).le h1)
  have := roundDouble_mono h3
  rwa [roundDouble_two_zpow _ (by norm_num)] at this

theorem filterAtIEEE_neg_cutoff (m n : Int) (D0 : ℝ) (u v : Nat) :
    filterAtIEEE m n (-D0) u v = filterAtIEEE m n D0 u v := by
  unfold filterAtIEEE
  rw [cutoffDenominator_neg]

/-- The rounded `exp` of a number `q ≤ 0` lies in `[0, 1]`. -/
theorem roundDouble_exp_mem (q : ℝ) (hq : q ≤ 0) :
    0 ≤ roundDouble (Real.exp q) ∧ roundDouble (Real.exp q) ≤ 1 := by
  constructor
  · exact roundDouble_nonneg (Real.exp_pos q).le
  · have := roundDouble_mono (Real.exp_le_one_iff.mpr hq)
    rwa [roundDouble_one] at this

/-- The last two roundings keep `[0, 1]`. -/
theorem roundFloat_roundDouble_mem (s : ℝ) (h0 : 0 ≤ s) (h1 : s ≤ 1) :
    0 ≤ roundFloat (roundDouble s) ∧ roundFloat (roundDouble s) ≤ 1 := by
  have a0 : 0 ≤ roundDouble s := roundDouble_nonneg h0
  have a1 : roundDouble s ≤ 1 := by
    have := roundDouble_mono h1
    rwa [roundDouble_one] at this
  constructor
  · exact roundToFormat_nonneg _ _ _ a0
  · have := roundFloat_mono a1
    rwa [roundFloat_one] at this

theorem quotient_nonpos (m n : Int) (D0 : ℝ) (u v : Nat) (hden : 0 ≤ cutoffDenominator D0) :
    roundDouble (-D_squareIEEE m n u v / cutoffDenominator D0) ≤ 0 := by
  have h : -D_squareIEEE m n u v / cutoffDenominator D0 ≤ 0 :=
    div_nonpos_of_nonpos_of_nonneg (by linarith [D_squareIEEE_nonneg m n u v]) hden
  have := roundDouble_mono h
  rwa [roundDouble_zero] at this

theorem maskOfQuotient_mem (q : ℝ) (hq : q ≤ 0) :
    0 ≤ maskOfQuotient q ∧ maskOfQuotient q ≤ 1 := by
  unfold maskOfQuotient
  split_ifs
  · exact ⟨zero_le_one, le_rfl⟩
  · have he := roundDouble_exp_mem q hq
    exact roundFloat_roundDouble_mem _ (by linarith [he.2]) (by linarith [he.1])

/-- The stored value does not increase with the quotient. -/
theorem maskOfQuotient_anti {q q' : ℝ} (h : q ≤ q') (hq' : q' ≤ 0) :
    maskOfQuotient q' ≤ maskOfQuotient q := by
  by_cases c : q < -DBL_MAX
  · have : maskOfQuotient q = 1 := by
      unfold maskOfQuotient
      rw [if_pos c]
    rw [this]
    exact (maskOfQuotient_mem q' hq').2
  · have c' : ¬ q' < -DBL_MAX := fun hc => c (lt_of_le_of_lt h hc)
    unfold maskOfQuotient
    rw [if_neg c, if_neg c']
    apply roundFloat_mono
    apply roundDouble_mono
    have := roundDouble_mono (Real.exp_le_exp.mpr h)
    linarith

theorem cutoffDenominator_nonneg' (D0 : ℝ) : 0 ≤ cutoffDenominator D0 := by
  rcases le_total 0 D0 with h0 | h0
  · exact cutoffDenominator_nonneg D0 h0
  · rw [← cutoffDenominator_neg]
    exact cutoffDenominator_nonneg (-D0) (by linarith)

/-- Every mask value that is not NaN lies in `[0, 1]`. -/
theorem filterAtIEEE_mem (m n : Int) (D0 : ℝ) (u v : Nat) (h : ℝ)
    (hv : filterAtIEEE m n D0 u v = some h) : 0 ≤ h ∧ h ≤ 1 := by
  unfold filterAtIEEE at hv
  split_ifs at hv with c1 c2 c3
  · have := Option.some.inj hv
    subst this
    exact ⟨le_rfl, zero_le_one⟩
  · have := Option.some.inj hv
    subst this
    exact ⟨zero_le_one, le_rfl⟩
  · have := Option.some.inj hv
    subst this
    exact maskOfQuotient_mem _ (quotient_nonpos m n D0 u v (cutoffDenominator_nonneg' D0))

/-- The mask value is NaN exactly when `2 * D0 * D0` is rounded to 0 and `D_square` is 0. -/
theorem filterAtIEEE_eq_none_iff (m n : Int) (D0 : ℝ) (u v : Nat) :
    filterAtIEEE m n D0 u v = none ↔
      cutoffDenominator D0 = 0 ∧ D_squareIEEE m n u v = 0 := by
  unfold filterAtIEEE
  constructor
  · intro hv
    split_ifs at hv with c1 c2 c3
    exact ⟨c2, c3⟩
  · rintro ⟨h1, h2⟩
    have hmax : (0 : ℝ) ≤ DBL_MAX := by unfold DBL_MAX; norm_num
    rw [if_neg (by rw [h1]; exact not_lt.mpr hmax), if_pos h1, if_pos h2]

theorem two_pow_le_DBL_MAX : (2 : ℝ) ^ (1023 : ℕ) ≤ DBL_MAX := by
  unfold DBL_MAX
  norm_num

theorem DBL_MAX_pos : (0 : ℝ) < DBL_MAX :=
  lt_of_lt_of_le (by positivity) two_pow_le_DBL_MAX

/-- The mask value for a cutoff whose `2 * D0 * D0` is a positive finite `double`. -/
theorem filterAtIEEE_of_finite (m n : Int) (D0 : ℝ) (u v : Nat)
    (h0 : 0 < cutoffDenominator D0) (h1 : cutoffDenominator D0 ≤ DBL_MAX) :
    filterAtIEEE m n D0 u v =
      some (maskOfQuotient (roundDouble (-D_squareIEEE m n u v / cutoffDenominator D0))) := by
  unfold filterAtIEEE
  rw [if_neg (not_lt.mpr h1), if_neg (ne_of_gt h0)]

theorem roundDouble_near_one {x : ℝ} (h1 : 1 - 2 ^ (-54 : ℤ) < x) (h2 : x ≤ 1) :
    roundDouble x = 1 := by
  have hx : 0 ≤ x := by
    have : (2 : ℝ) ^ (-54 : ℤ) ≤ 1 := zpow_le_one_of_nonpos₀ (by norm_num) (by norm_num)
    linarith
  unfold roundDouble
  rw [roundToFormat_of_nonneg _ _ _ hx]
  have e : -((((53 : ℕ) : ℤ)) + 1) = -54 := by norm_num
  exact roundMagnitude_near_one 53 (by norm_num) (-1022) (by norm_num) x (by rw [e]; exact h1) h2

theorem exp_neg_le_two_zpow (k : ℕ) : Real.exp (-(k : ℝ)) ≤ 2 ^ (-(k : ℤ)) := by
  rw [Real.exp_neg, zpow_neg, zpow_natCast]
  apply inv_anti₀ (by positivity)
  have h1 : (2 : ℝ) ≤ Real.exp 1 := by
    have := Real.add_one_le_exp (1 : ℝ)
    linarith
  calc (2 : ℝ) ^ k ≤ Real.exp 1 ^ k := pow_le_pow_left₀ (by norm_num) h1 k
    _ = Real.exp k := by rw [← Real.exp_nat_mul, mul_one]

/-- A quotient of at most -26 gives the stored value 1: `exp` is below `2^-26`, and
`1 - exp` is rounded to the `float` 1. -/
theorem maskOfQuotient_eq_one (q : ℝ) (hq : q ≤ -26) : maskOfQuotient q = 1 := by
  unfold maskOfQuotient
  split_ifs
  · rfl
  · have he0 : 0 ≤ roundDouble (Real.exp q) := roundDouble_nonneg (Real.exp_pos q).le
    have he1 : roundDouble (Real.exp q) ≤ 2 ^ (-26 : ℤ) := by
      have h1 : Real.exp q ≤ 2 ^ (-26 : ℤ) := by
        have h2 : Real.exp q ≤ Real.exp (-((26 : ℕ) : ℝ)) :=
          Real.exp_le_exp.mpr (by push_cast; exact hq)
        exact le_trans h2 (exp_neg_le_two_zpow 26)
      have := roundDouble_mono h1
      rwa [roundDouble_two_zpow _ (by norm_num)] at this
    have hs1 : roundDouble (1 - roundDouble (Real.exp q)) ≤ 1 := by
      have := roundDouble_mono (by linarith : 1 - roundDouble (Real.exp q) ≤ 1)
      rwa [roundDouble_one] at this
    have hrep : roundDouble (1 - 2 ^ (-26 : ℤ)) = 1 - 2 ^ (-26 : ℤ) := by
      have h := roundDouble_of_representable (2 ^ 26 - 1) (-26) (by norm_num) (by norm_num)
      have hc : (((2 ^ 26 - 1 : ℕ) : ℝ)) * 2 ^ (-26 : ℤ) = 1 - 2 ^ (-26 : ℤ) := by
        norm_num
      rwa [hc] at h
    have hs0 : 1 - 2 ^ (-26 : ℤ) ≤ roundDouble (1 - roundDouble (Real.exp q)) := by
      have := roundDouble_mono (by linarith : 1 - (2 : ℝ) ^ (-26 : ℤ) ≤
        1 - roundDouble (Real.exp q))
      rwa [hrep] at this
    apply roundFloat_near_one _ hs1
    have : (2 : ℝ) ^ (-26 : ℤ) < 2 ^ (-25 : ℤ) := by norm_num
    linarith

/-- A quotient in `[-2^-55, 0]` gives the stored value 0: `exp` is rounded to 1. -/
theorem maskOfQuotient_eq_zero (q : ℝ) (hq0 : q ≤ 0) (hq : -2 ^ (-55 : ℤ) ≤ q) :
    maskOfQuotient q = 0 := by
  have hsmall : (2 : ℝ) ^ (-55 : ℤ) < 2 ^ (-54 : ℤ) := by norm_num
  have hmax := DBL_MAX_pos
  have h55 : (2 : ℝ) ^ (-55 : ℤ) ≤ 1 := zpow_le_one_of_nonpos₀ (by norm_num) (by norm_num)
  unfold maskOfQuotient
  rw [if_neg (by linarith [two_pow_le_DBL_MAX])]
  have he : roundDouble (Real.exp q) = 1 := by
    apply roundDouble_near_one
    · have := Real.add_one_le_exp q
      linarith
    · exact Real.exp_le_one_iff.mpr hq0
  rw [he, sub_self, roundDouble_zero, roundFloat_zero]


/-! ## Claims on the mask in IEEE 754 arithmetic -/

/-- For a cutoff `D0` with `2^-537 ≤ D0 ≤ 2^24` the `double` product `2 * D0 * D0` lies in
`[2^-1073, 2^49]`. -/
theorem cutoffDenominator_le (D0 : ℝ) (h0 : 0 ≤ D0) (h : D0 ≤ 2 ^ (24 : ℤ)) :
    cutoffDenominator D0 ≤ 2 ^ (49 : ℤ) := by
  have h1 : roundDouble (2 * D0) ≤ 2 ^ (25 : ℤ) := by
    have h2 : 2 * D0 ≤ 2 ^ (25 : ℤ) := by
      have : (2 : ℝ) ^ (25 : ℤ) = 2 * 2 ^ (24 : ℤ) := by norm_num
      rw [this]
      linarith
    have := roundDouble_mono h2
    rwa [roundDouble_two_zpow _ (by norm_num)] at this
  have h3 : roundDouble (2 * D0) * D0 ≤ 2 ^ (49 : ℤ) := by
    have : (2 : ℝ) ^ (49 : ℤ) = 2 ^ (25 : ℤ) * 2 ^ (24 : ℤ) := by norm_num
    rw [this]
    exact mul_le_mul h1 h h0 (two_zpow_pos _).le
  have := roundDouble_mono h3
  unfold cutoffDenominator
  rwa [roundDouble_two_zpow _ (by norm_num)] at this

theorem exp_neg_le_one_sub_half (t : ℝ) (h0 : 0 ≤ t) (h1 : t ≤ 1) :
    Real.exp (-t) ≤ 1 - t / 2 := by
  have h2 := div_le_one_sub_exp_neg t h0
  have h3 : t / 2 ≤ t / (1 + t) := by
    rw [div_le_div_iff₀ (by norm_num) (by linarith)]
    nlinarith
  linarith

theorem maskOfQuotient_pos (q : ℝ) (hq : q ≤ -2 ^ (-49 : ℤ)) : 0 < maskOfQuotient q := by
  unfold maskOfQuotient
  split_ifs
  · exact zero_lt_one
  · have ht0 : (0 : ℝ) ≤ 2 ^ (-49 : ℤ) := (two_zpow_pos _).le
    have ht1 : (2 : ℝ) ^ (-49 : ℤ) ≤ 1 := zpow_le_one_of_nonpos₀ (by norm_num) (by norm_num)
    have hexp : Real.exp q ≤ 1 - 2 ^ (-50 : ℤ) := by
      have h1 : Real.exp q ≤ Real.exp (-(2 ^ (-49 : ℤ))) := Real.exp_le_exp.mpr hq
      have h2 := exp_neg_le_one_sub_half ((2 : ℝ) ^ (-49 : ℤ)) ht0 ht1
      have h3 : (2 : ℝ) ^ (-49 : ℤ) / 2 = 2 ^ (-50 : ℤ) := by
        rw [show (-50 : ℤ) = -49 + -1 by norm_num, zpow_add₀ (by norm_num : (2 : ℝ) ≠ 0)]
        norm_num
      rw [h3] at h2
      exact le_trans h1 h2
    have hrep : roundDouble (1 - 2 ^ (-50 : ℤ)) = 1 - 2 ^ (-50 : ℤ) := by
      have h := roundDouble_of_representable (2 ^ 50 - 1) (-50) (by norm_num) (by norm_num)
      have hc : (((2 ^ 50 - 1 : ℕ) : ℝ)) * 2 ^ (-50 : ℤ) = 1 - 2 ^ (-50 : ℤ) := by
        norm_num
      rwa [hc] at h
    have he : roundDouble (Real.exp q) ≤ 1 - 2 ^ (-50 : ℤ) := by
      have := roundDouble_mono hexp
      rwa [hrep] at this
    have hs : (2 : ℝ) ^ (-50 : ℤ) ≤ roundDouble (1 - roundDouble (Real.exp q)) := by
      have := roundDouble_mono (by linarith : (2 : ℝ) ^ (-50 : ℤ) ≤
        1 - roundDouble (Real.exp q))
      rwa [roundDouble_two_zpow _ (by norm_num)] at this
    have hf := roundFloat_mono hs
    rw [roundFloat_two_zpow _ (by norm_num)] at hf
    exact lt_of_lt_of_le (two_zpow_pos _) hf

/-- C6 (amended): in the IEEE 754 arithmetic of the program, for every padded size M x N
and every cutoff D0 with 2^-537 ≤ D0 ≤ 2^24 (the product 2 * D0 * D0 is then neither
rounded to 0 nor so large that exp(-D_square / (2 * D0 * D0)) is rounded to 1 next to the
centre), the stored mask value is 0 at (u,v) = (M/2, N/2), with the integer quotients, and
is a strictly positive number at every other coordinate of [0,M) x [0,N). -/
theorem mask_centring (M N : Nat) (D0 : ℝ) (hlo : 2 ^ (-537 : ℤ) ≤ D0)
    (hhi : D0 ≤ 2 ^ (24 : ℤ)) :
    filterAtIEEE M N D0 (M / 2) (N / 2) = some 0 ∧
    ∀ u v : Nat, u < M → v < N → (u, v) ≠ (M / 2, N / 2) →
      ∃ h : ℝ, filterAtIEEE M N D0 u v = some h ∧ 0 < h := by
  have hD0 : 0 ≤ D0 := le_trans (two_zpow_pos _).le hlo
  have hden0 : 0 < cutoffDenominator D0 :=
    lt_of_lt_of_le (two_zpow_pos _) (cutoffDenominator_pos D0 hlo)
  have hden1 := cutoffDenominator_le D0 hD0 hhi
  have hmax : cutoffDenominator D0 ≤ DBL_MAX := by
    refine le_trans hden1 (le_trans ?_ two_pow_le_DBL_MAX)
    norm_num
  constructor
  · rw [filterAtIEEE_of_finite _ _ _ _ _ hden0 hmax,
      D_squareIEEE_of_eq_zero _ _ _ _ ((D_square_eq_zero_iff M N _ _).mpr rfl)]
    rw [neg_zero, zero_div, roundDouble_zero, maskOfQuotient_eq_zero 0 le_rfl
      (by linarith [two_zpow_pos (-55)])]
  · intro u v _ _ huv
    rw [filterAtIEEE_of_finite _ _ _ _ _ hden0 hmax]
    refine ⟨_, rfl, maskOfQuotient_pos _ ?_⟩
    have hd : 1 ≤ D_squareIEEE M N u v :=
      one_le_D_squareIEEE _ _ _ _ (fun h => huv ((D_square_eq_zero_iff M N u v).mp h))
    have hq : -D_squareIEEE M N u v / cutoffDenominator D0 ≤ -2 ^ (-49 : ℤ) := by
      rw [neg_div, neg_le_neg_iff, zpow_neg, ← one_div]
      exact div_le_div₀ (by linarith) hd hden0 hden1
    have := roundDouble_mono hq
    rwa [roundDouble_neg, roundDouble_two_zpow _ (by norm_num)] at this

/-- C6 (witness): the padded size 64 x 64 and the cutoff 30. -/
theorem mask_centring_witness :
    (2 : ℝ) ^ (-537 : ℤ) ≤ 30 ∧ (30 : ℝ) ≤ 2 ^ (24 : ℤ) ∧
    filterAtIEEE (64 : Nat) (64 : Nat) 30 (64 / 2) (64 / 2) = some 0 ∧
    ∀ u v : Nat, u < 64 → v < 64 → (u, v) ≠ (64 / 2, 64 / 2) →
      ∃ h : ℝ, filterAtIEEE (64 : Nat) (64 : Nat) 30 u v = some h ∧ 0 < h :=
  have h1 : (2 : ℝ) ^ (-537 : ℤ) ≤ 30 :=
    le_trans (zpow_le_one_of_nonpos₀ (by norm_num) (by norm_num)) (by norm_num)
  have h2 : (30 : ℝ) ≤ 2 ^ (24 : ℤ) := by norm_num
  ⟨h1, h2, mask_centring 64 64 30 h1 h2⟩


/-! ## Evaluation of the mask at concrete cutoffs -/

theorem cutoffDenominator_natCast (k : ℕ) (hk : 2 * k * k < 2 ^ 53) :
    cutoffDenominator (k : ℝ) = ((2 * k * k : ℕ) : ℝ) := by
  unfold cutoffDenominator
  have h1 : (2 : ℝ) * (k : ℝ) = ((2 * k : ℕ) : ℝ) := by push_cast; ring
  have hk2 : 2 * k < 2 ^ 53 := by
    rcases Nat.eq_zero_or_pos k with h | h
    · subst h
      norm_num
    · calc 2 * k ≤ 2 * k * k := Nat.le_mul_of_pos_right _ h
        _ < 2 ^ 53 := hk
  rw [h1, roundDouble_natCast _ hk2]
  have h2 : ((2 * k : ℕ) : ℝ) * (k : ℝ) = ((2 * k * k : ℕ) : ℝ) := by push_cast; ring
  rw [h2, roundDouble_natCast _ hk]

theorem cutoffDenominator_two_zpow (k : ℤ) (h1 : -1074 ≤ k + 1) (h2 : -1074 ≤ 2 * k + 1) :
    cutoffDenominator (2 ^ k) = 2 ^ (2 * k + 1) := by
  unfold cutoffDenominator
  have e1 : (2 : ℝ) * 2 ^ k = 2 ^ (k + 1) := by
    rw [zpow_add₀ (by norm_num : (2 : ℝ) ≠ 0), zpow_one, mul_comm]
  have e2 : (2 : ℝ) ^ (k + 1) * 2 ^ k = 2 ^ (2 * k + 1) := by
    rw [← zpow_add₀ (by norm_num : (2 : ℝ) ≠ 0)]
    congr 1
    ring
  rw [e1, roundDouble_two_zpow _ h1, e2, roundDouble_two_zpow _ h2]

theorem cutoffDenominator_underflow : cutoffDenominator (2 ^ (-600 : ℤ)) = 0 := by
  unfold cutoffDenominator
  have e1 : (2 : ℝ) * 2 ^ (-600 : ℤ) = 2 ^ (-599 : ℤ) := by
    rw [show (-599 : ℤ) = -600 + 1 by norm_num, zpow_add₀ (by norm_num : (2 : ℝ) ≠ 0),
      zpow_one, mul_comm]
  have e2 : (2 : ℝ) ^ (-599 : ℤ) * 2 ^ (-600 : ℤ) = 2 ^ (-1199 : ℤ) := by
    rw [← zpow_add₀ (by norm_num : (2 : ℝ) ≠ 0)]
    norm_num
  rw [e1, roundDouble_two_zpow _ (by norm_num), e2]
  exact roundDouble_of_lt (two_zpow_pos _).le
    (zpow_lt_zpow_right₀ (by norm_num) (by norm_num))

theorem D_squareIEEE_natCast (m n : Int) (u v : Nat) (d : ℕ) (hd : D_square m n u v = d)
    (hu : ((u : Int) - Int.tdiv m 2) ^ 2 < 2 ^ 52)
    (hv : ((v : Int) - Int.tdiv n 2) ^ 2 < 2 ^ 52) :
    D_squareIEEE m n u v = (d : ℝ) := by
  rw [D_squareIEEE_eq m n u v hu hv, hd]
  simp

/-- The mask value at the corner (0,0) for the padded size 64 x 64 and D0 = 1 is the
`float` 1: the quotient is -1024, and `1 - exp(-1024)` is rounded to 1. -/
theorem filterAtIEEE_64_one : filterAtIEEE (64 : Nat) (64 : Nat) 1 0 0 = some 1 := by
  have hden : cutoffDenominator 1 = 2 := by
    have := cutoffDenominator_natCast 1 (by norm_num)
    simpa using this
  have hdsq : D_squareIEEE (64 : Nat) (64 : Nat) 0 0 = 2048 := by
    have := D_squareIEEE_natCast (64 : Nat) (64 : Nat) 0 0 2048 (by decide) (by decide)
      (by decide)
    simpa using this
  rw [filterAtIEEE_of_finite _ _ _ _ _ (by rw [hden]; norm_num)
    (by rw [hden]; exact le_trans (by norm_num) two_pow_le_DBL_MAX), hden, hdsq]
  have hq : roundDouble (-2048 / 2) = -1024 := by
    have h1 : (-2048 : ℝ) / 2 = -((1024 : ℕ) : ℝ) := by norm_num
    rw [h1, roundDouble_neg, roundDouble_natCast _ (by norm_num)]
    norm_num
  rw [hq, maskOfQuotient_eq_one _ (by norm_num)]

/-- The mask value at the corner (0,0) for the padded size 720 x 720 is the `float` 1 for
D0 = 30 (quotient -144) and for D0 = 60 (quotient -36). -/
theorem filterAtIEEE_720 :
    filterAtIEEE (720 : Nat) (720 : Nat) 30 0 0 = some 1 ∧
    filterAtIEEE (720 : Nat) (720 : Nat) 60 0 0 = some 1 := by
  have hden30 : cutoffDenominator 30 = 1800 := by
    have := cutoffDenominator_natCast 30 (by norm_num)
    simpa using this
  have hden60 : cutoffDenominator 60 = 7200 := by
    have := cutoffDenominator_natCast 60 (by norm_num)
    simpa using this
  have hdsq : D_squareIEEE (720 : Nat) (720 : Nat) 0 0 = 259200 := by
    have := D_squareIEEE_natCast (720 : Nat) (720 : Nat) 0 0 259200 (by decide) (by decide)
      (by decide)
    simpa using this
  constructor
  · rw [filterAtIEEE_of_finite _ _ _ _ _ (by rw [hden30]; norm_num)
      (by rw [hden30]; exact le_trans (by norm_num) two_pow_le_DBL_MAX), hden30, hdsq]
    have hq : roundDouble (-259200 / 1800) = -144 := by
      have h1 : (-259200 : ℝ) / 1800 = -((144 : ℕ) : ℝ) := by norm_num
      rw [h1, roundDouble_neg, roundDouble_natCast _ (by norm_num)]
      norm_num
    rw [hq, maskOfQuotient_eq_one _ (by norm_num)]
  · rw [filterAtIEEE_of_finite _ _ _ _ _ (by rw [hden60]; norm_num)
      (by rw [hden60]; exact le_trans (by norm_num) two_pow_le_DBL_MAX), hden60, hdsq]
    have hq : roundDouble (-259200 / 7200) = -36 := by
      have h1 : (-259200 : ℝ) / 7200 = -((36 : ℕ) : ℝ) := by norm_num
      rw [h1, roundDouble_neg, roundDouble_natCast _ (by norm_num)]
      norm_num
    rw [hq, maskOfQuotient_eq_one _ (by norm_num)]

/-- The mask value at the corner (0,0) for the padded size 2 x 2 and D0 = 2^30 is the
`float` 0: the quotient is -2^-60, and `exp(-2^-60)` is rounded to 1. -/
theorem filterAtIEEE_two_large : filterAtIEEE (2 : Nat) (2 : Nat) (2 ^ (30 : ℤ)) 0 0 = some 0 := by
  have hden : cutoffDenominator (2 ^ (30 : ℤ)) = 2 ^ (61 : ℤ) := by
    have := cutoffDenominator_two_zpow 30 (by norm_num) (by norm_num)
    simpa using this
  have hdsq : D_squareIEEE (2 : Nat) (2 : Nat) 0 0 = 2 := by
    have := D_squareIEEE_natCast (2 : Nat) (2 : Nat) 0 0 2 (by decide) (by decide) (by decide)
    simpa using this
  rw [filterAtIEEE_of_finite _ _ _ _ _ (by rw [hden]; exact two_zpow_pos _)
    (by rw [hden]; exact le_trans (by norm_num) two_pow_le_DBL_MAX), hden, hdsq]
  have hq : roundDouble (-2 / 2 ^ (61 : ℤ)) = -2 ^ (-60 : ℤ) := by
    have h1 : (-2 : ℝ) / 2 ^ (61 : ℤ) = -2 ^ (-60 : ℤ) := by norm_num
    rw [h1, roundDouble_neg, roundDouble_two_zpow _ (by norm_num)]
  rw [hq, maskOfQuotient_eq_zero _ (by linarith [two_zpow_pos (-60)])
    (by
      have : (2 : ℝ) ^ (-60 : ℤ) ≤ 2 ^ (-55 : ℤ) :=
        zpow_le_zpow_right₀ (by norm_num) (by norm_num)
      linarith)]

/-- The mask value for a cutoff whose `2 * D0 * D0` is not rounded to 0. -/
theorem filterAtIEEE_of_pos (m n : Int) (D0 : ℝ) (u v : Nat) (h0 : 0 < cutoffDenominator D0) :
    filterAtIEEE m n D0 u v =
      some (if DBL_MAX < cutoffDenominator D0 then 0
        else maskOfQuotient (roundDouble (-D_squareIEEE m n u v / cutoffDenominator D0))) := by
  unfold filterAtIEEE
  by_cases c : DBL_MAX < cutoffDenominator D0
  · rw [if_pos c, if_pos c]
  · rw [if_neg c, if_neg c, if_neg (ne_of_gt h0)]

theorem cutoffDenominator_pos_of_abs (D0 : ℝ) (hD : 2 ^ (-537 : ℤ) ≤ |D0|) :
    0 < cutoffDenominator D0 := by
  rcases le_total 0 D0 with h | h
  · rw [abs_of_nonneg h] at hD
    exact lt_of_lt_of_le (two_zpow_pos _) (cutoffDenominator_pos D0 hD)
  · rw [abs_of_nonpos h] at hD
    rw [← cutoffDenominator_neg]
    exact lt_of_lt_of_le (two_zpow_pos _) (cutoffDenominator_pos (-D0) hD)

/-- C6 (counterexample): in the IEEE 754 arithmetic of the program, for the padded size
2 x 2 and the cutoff D0 = 2^30 > 0 the stored mask value at (0,0), which is not the centre
(1,1), is 0 and not strictly positive: the quotient is -2^-60 and exp of it is rounded to
1. For the cutoff D0 = 2^-600 > 0 the value at the centre (1,1) is NaN and not 0. -/
theorem mask_centring_counterexample :
    ((0 : ℝ) < 2 ^ (30 : ℤ) ∧ ((0 : Nat), (0 : Nat)) ≠ (2 / 2, 2 / 2) ∧
      filterAtIEEE (2 : Nat) (2 : Nat) (2 ^ (30 : ℤ)) 0 0 = some 0) ∧
    ((0 : ℝ) < 2 ^ (-600 : ℤ) ∧
      filterAtIEEE (2 : Nat) (2 : Nat) (2 ^ (-600 : ℤ)) (2 / 2) (2 / 2) = none) := by
  refine ⟨⟨two_zpow_pos _, by decide, filterAtIEEE_two_large⟩, two_zpow_pos _, ?_⟩
  rw [filterAtIEEE_eq_none_iff]
  exact ⟨cutoffDenominator_underflow, D_squareIEEE_of_eq_zero _ _ _ _ (by decide)⟩

/-- C7 (counterexample): in the IEEE 754 arithmetic of the program, for the padded size
64 x 64, the coordinate (0,0) and the cutoff D0 = 1 the stored mask value is exactly 1, so
H(u,v) < 1 does not hold. -/
theorem mask_range_counterexample :
    (0 : ℝ) < 1 ∧ 0 < 64 ∧
    filterAtIEEE (64 : Nat) (64 : Nat) 1 0 0 = some 1 ∧
    ¬ ∃ h : ℝ, filterAtIEEE (64 : Nat) (64 : Nat) 1 0 0 = some h ∧ h < 1 := by
  refine ⟨zero_lt_one, by decide, filterAtIEEE_64_one, ?_⟩
  rintro ⟨h, hh, hlt⟩
  rw [filterAtIEEE_64_one] at hh
  have := Option.some.inj hh
  linarith

/-- C7 (amended): in the IEEE 754 arithmetic of the program, for every padded size, every
coordinate (u,v) and every cutoff D0 with |D0| ≥ 2^-537 (so that 2 * D0 * D0 is not
rounded to 0), the stored mask value is a number H(u,v) with 0 ≤ H(u,v) ≤ 1 (the value 1
is reached), and among the coordinates whose offsets from (M/2, N/2) have squares below
2^52 it is non-decreasing in the squared distance (u - M/2)^2 + (v - N/2)^2. -/
theorem mask_range (m n : Int) (D0 : ℝ) (hD : 2 ^ (-537 : ℤ) ≤ |D0|) (u v : Nat) :
    ∃ h : ℝ, filterAtIEEE m n D0 u v = some h ∧ 0 ≤ h ∧ h ≤ 1 ∧
      ∀ u' v' : Nat,
        ((u : Int) - Int.tdiv m 2) ^ 2 < 2 ^ 52 → ((v : Int) - Int.tdiv n 2) ^ 2 < 2 ^ 52 →
        ((u' : Int) - Int.tdiv m 2) ^ 2 < 2 ^ 52 → ((v' : Int) - Int.tdiv n 2) ^ 2 < 2 ^ 52 →
        D_square m n u v ≤ D_square m n u' v' →
        ∃ h' : ℝ, filterAtIEEE m n D0 u' v' = some h' ∧ h ≤ h' := by
  have hden := cutoffDenominator_pos_of_abs D0 hD
  have hv := filterAtIEEE_of_pos m n D0 u v hden
  obtain ⟨h0, h1⟩ := filterAtIEEE_mem m n D0 u v _ hv
  refine ⟨_, hv, h0, h1, ?_⟩
  intro u' v' hu hv2 hu' hv' hle
  refine ⟨_, filterAtIEEE_of_pos m n D0 u' v' hden, ?_⟩
  by_cases c : DBL_MAX < cutoffDenominator D0
  · rw [if_pos c, if_pos c]
  · rw [if_neg c, if_neg c]
    have hd : D_squareIEEE m n u v ≤ D_squareIEEE m n u' v' := by
      rw [D_squareIEEE_eq m n u v hu hv2, D_squareIEEE_eq m n u' v' hu' hv']
      exact_mod_cast hle
    apply maskOfQuotient_anti
    · apply roundDouble_mono
      exact div_le_div_of_nonneg_right (by linarith) hden.le
    · exact quotient_nonpos m n D0 u v hden.le

/-- C7 (witness): the padded size 64 x 64, the cutoff 30 and the coordinate (0,0). -/
theorem mask_range_witness :
    (2 : ℝ) ^ (-537 : ℤ) ≤ |30| ∧
    ∃ h : ℝ, filterAtIEEE (64 : Nat) (64 : Nat) 30 0 0 = some h ∧ 0 ≤ h ∧ h ≤ 1 :=
  have h1 : (2 : ℝ) ^ (-537 : ℤ) ≤ |30| := by
    rw [abs_of_nonneg (by norm_num)]
    exact le_trans (zpow_le_one_of_nonpos₀ (by norm_num) (by norm_num)) (by norm_num)
  ⟨h1, (mask_range (64 : Nat) (64 : Nat) 30 h1 0 0).imp
    (fun _ h => ⟨h.1, h.2.1, h.2.2.1⟩)⟩

/-- The stored mask value does not increase with the cutoff. -/
theorem filterAtIEEE_anti_cutoff (m n : Int) (D0 D0' : ℝ) (h0 : 2 ^ (-537 : ℤ) ≤ D0)
    (h : D0 ≤ D0') (u v : Nat) :
    ∃ g g' : ℝ, filterAtIEEE m n D0 u v = some g ∧ filterAtIEEE m n D0' u v = some g' ∧
      g' ≤ g := by
  have hD0 : 0 ≤ D0 := le_trans (two_zpow_pos _).le h0
  have hden : 0 < cutoffDenominator D0 :=
    lt_of_lt_of_le (two_zpow_pos _) (cutoffDenominator_pos D0 h0)
  have hden' : 0 < cutoffDenominator D0' :=
    lt_of_lt_of_le (two_zpow_pos _) (cutoffDenominator_pos D0' (le_trans h0 h))
  have hle := cutoffDenominator_mono hD0 h
  have hv := filterAtIEEE_of_pos m n D0 u v hden
  have hv' := filterAtIEEE_of_pos m n D0' u v hden'
  refine ⟨_, _, hv, hv', ?_⟩
  by_cases c' : DBL_MAX < cutoffDenominator D0'
  · rw [if_pos c']
    exact (filterAtIEEE_mem m n D0 u v _ hv).1
  · have c : ¬ DBL_MAX < cutoffDenominator D0 := fun hc => c' (lt_of_lt_of_le hc hle)
    rw [if_neg c, if_neg c']
    apply maskOfQuotient_anti
    · apply roundDouble_mono
      rw [neg_div, neg_div, neg_le_neg_iff]
      exact div_le_div_of_nonneg_left (D_squareIEEE_nonneg m n u v) hden hle
    · exact quotient_nonpos m n D0' u v hden'.le

/-- C9 (counterexample): in the IEEE 754 arithmetic of the program, for the padded size
720 x 720 and the bin (0,0), which is not (360,360), the stored gain is the `float` 1 for
D0 = 30 and for D0' = 60, so it is not strictly smaller for the larger cutoff. -/
theorem monotonic_suppression_counterexample :
    (0 : ℝ) < 30 ∧ (30 : ℝ) < 60 ∧ ((0 : Nat), (0 : Nat)) ≠ (720 / 2, 720 / 2) ∧
    filterAtIEEE (720 : Nat) (720 : Nat) 30 0 0 = some 1 ∧
    filterAtIEEE (720 : Nat) (720 : Nat) 60 0 0 = some 1 ∧
    ¬ ∃ g g' : ℝ, filterAtIEEE (720 : Nat) (720 : Nat) 30 0 0 = some g ∧
      filterAtIEEE (720 : Nat) (720 : Nat) 60 0 0 = some g' ∧ g' < g := by
  refine ⟨by norm_num, by norm_num, by decide, filterAtIEEE_720.1, filterAtIEEE_720.2, ?_⟩
  rintro ⟨g, g', hg, hg', hlt⟩
  rw [filterAtIEEE_720.1] at hg
  rw [filterAtIEEE_720.2] at hg'
  have h1 := Option.some.inj hg
  have h2 := Option.some.inj hg'
  linarith

/-- C9 (amended): in the IEEE 754 arithmetic of the program, for every padded size M x N,
every bin (u,v) and all cutoffs 2^-537 ≤ D0 ≤ D0', the stored mask gains are numbers with
H_{D0'}(u,v) ≤ H_{D0}(u,v) (equality is possible at any bin); in particular the gain
applied to the DC bin (0,0) does not increase along D0 = 30, 60, 120. -/
theorem monotonic_suppression (M N : Nat) (D0 D0' : ℝ) (h0 : 2 ^ (-537 : ℤ) ≤ D0)
    (h : D0 ≤ D0') :
    (∀ u v : Nat, ∃ g g' : ℝ, filterAtIEEE M N D0 u v = some g ∧
      filterAtIEEE M N D0' u v = some g' ∧ g' ≤ g) ∧
    ∃ g30 g60 g120 : ℝ, filterAtIEEE M N 30 0 0 = some g30 ∧
      filterAtIEEE M N 60 0 0 = some g60 ∧ filterAtIEEE M N 120 0 0 = some g120 ∧
      g120 ≤ g60 ∧ g60 ≤ g30 := by
  refine ⟨fun u v => filterAtIEEE_anti_cutoff M N D0 D0' h0 h u v, ?_⟩
  have h30 : (2 : ℝ) ^ (-537 : ℤ) ≤ 30 :=
    le_trans (zpow_le_one_of_nonpos₀ (by norm_num) (by norm_num)) (by norm_num)
  have h60 : (2 : ℝ) ^ (-537 : ℤ) ≤ 60 :=
    le_trans (zpow_le_one_of_nonpos₀ (by norm_num) (by norm_num)) (by norm_num)
  obtain ⟨g30, g60, e30, e60, hle1⟩ :=
    filterAtIEEE_anti_cutoff M N 30 60 h30 (by norm_num) 0 0
  obtain ⟨g60', g120, e60', e120, hle2⟩ :=
    filterAtIEEE_anti_cutoff M N 60 120 h60 (by norm_num) 0 0
  have : g60' = g60 := Option.some.inj (e60'.symm.trans e60)
  subst this
  exact ⟨g30, g60', g120, e30, e60, e120, hle2, hle1⟩

/-- C9 (witness): the padded size 64 x 64 and the cutoffs 30 and 60. -/
theorem monotonic_suppression_witness :
    (2 : ℝ) ^ (-537 : ℤ) ≤ 30 ∧ (30 : ℝ) ≤ 60 ∧
    ∀ u v : Nat, ∃ g g' : ℝ, filterAtIEEE (64 : Nat) (64 : Nat) 30 u v = some g ∧
      filterAtIEEE (64 : Nat) (64 : Nat) 60 u v = some g' ∧ g' ≤ g :=
  have h1 : (2 : ℝ) ^ (-537 : ℤ) ≤ 30 :=
    le_trans (zpow_le_one_of_nonpos₀ (by norm_num) (by norm_num)) (by norm_num)
  ⟨h1, by norm_num, (monotonic_suppression 64 64 30 60 h1 (by norm_num)).1⟩

/-! ## Claim on normalization -/

theorem filterAt_neg_cutoff (m n : Int) (D0 : ℝ) (u v : Nat) :
    filterAt m n (-D0) u v = filterAt m n D0 u v := by
  unfold filterAt
  have h : 2 * -D0 * -D0 = 2 * D0 * D0 := by ring
  rw [h]

theorem croppedMagnitude_neg_cutoff (src : Mat ℝ) (D0 : ℝ) :
    croppedMagnitude src (-D0) = croppedMagnitude src D0 := by
  unfold croppedMagnitude filteredMagnitude maskedSpectrum complexFilter filter
  simp only [filterAt_neg_cutoff]

theorem applyHighPassFilter_neg_cutoff (src : Mat ℝ) (D0 : ℝ) :
    applyHighPassFilter src (-D0) = applyHighPassFilter src D0 := by
  unfold applyHighPassFilter
  rw [croppedMagnitude_neg_cutoff]

/-- C4 (the code at the 2 x 2 grid with the single sample 1 at (0,0), D0 = 30): in general
the masked spectrum value is the complex product of the spectrum value with H + iH, with
real part H*(Re - Im) and imaginary part H*(Re + Im); at the bin (0,0) of this grid the
spectrum value is 1 + 0i and the masked value has imaginary part H(0,0) > 0, not
H(0,0) * 0. -/
theorem apply_mask_complex_product :
    (∀ (p : Mat ℝ) (m n : Int) (D0 : ℝ) (u : Fin p.rows) (v : Fin p.cols),
      (maskedSpectrum p m n D0 u v).re =
        filterAt m n D0 u.val v.val * ((spectrum p u v).re - (spectrum p u v).im) ∧
      (maskedSpectrum p m n D0 u v).im =
        filterAt m n D0 u.val v.val * ((spectrum p u v).re + (spectrum p u v).im)) ∧
    ∃ d : Fin 2 → Fin 2 → ℝ,
      padded (impulseGrid 1) = some (Mat.mk 2 2 d) ∧
      getOptimalDFTSize (impulseGrid 1).rows = 2 ∧ getOptimalDFTSize (impulseGrid 1).cols = 2 ∧
      spectrum (Mat.mk 2 2 d) (0 : Fin 2) (0 : Fin 2) = 1 ∧
      (maskedSpectrum (Mat.mk 2 2 d) 2 2 30 (0 : Fin 2) (0 : Fin 2)).im = filterAt 2 2 30 0 0 ∧
      (maskedSpectrum (Mat.mk 2 2 d) 2 2 30 (0 : Fin 2) (0 : Fin 2)).im ≠
        filterAt 2 2 30 0 0 * (spectrum (Mat.mk 2 2 d) (0 : Fin 2) (0 : Fin 2)).im := by
  constructor
  · intro p m n D0 u v
    rw [maskedSpectrum_apply]
    constructor
    · simp only [Complex.mul_re]
      ring
    · simp only [Complex.mul_im]
      ring
  · obtain ⟨d, hp, d00, d01, d10, d11⟩ := padded_impulseGrid 1
    have hs : spectrum (Mat.mk 2 2 d) (0 : Fin 2) (0 : Fin 2) = 1 := by
      rw [spectrum_impulse d 1 d00 d01 d10 d11]
      norm_num
    have him : (maskedSpectrum (Mat.mk 2 2 d) 2 2 30 (0 : Fin 2) (0 : Fin 2)).im =
        filterAt 2 2 30 0 0 := by
      rw [maskedSpectrum_apply, hs]
      simp
    have hpos : 0 < filterAt 2 2 30 0 0 :=
      (filterAt_pos_iff 2 2 30 (by norm_num) 0 0).mpr (by decide)
    refine ⟨d, hp, by decide, by decide, hs, him, ?_⟩
    rw [him, hs]
    simp only [Complex.one_im, mul_zero]
    exact hpos.ne'

/-- C5 (amended): the filter does not check the cutoff. For every src with
0 < rows < 2125764000 and 0 < cols < 2125764000 and every D0 ≤ 0 the call is not rejected:
it returns a grid of rows x cols samples, the grid it returns for the cutoff -D0 (the mask
uses D0 only in the product D0 * D0). -/
theorem cutoff_not_checked (src : Mat ℝ) (D0 : ℝ) (_hD : D0 ≤ 0)
    (hr0 : 0 < src.rows) (hc0 : 0 < src.cols)
    (hr : (src.rows : Int) < optimalDFTSizeTabLast)
    (hc : (src.cols : Int) < optimalDFTSizeTabLast) :
    ∃ dst : Mat ℝ, applyHighPassFilter src D0 = some dst ∧
      dst.rows = src.rows ∧ dst.cols = src.cols ∧
      applyHighPassFilter src (-D0) = some dst := by
  obtain ⟨dst, h, h1, h2⟩ := applyHighPassFilter_eq_some src D0 hr0 hc0 hr hc
  exact ⟨dst, h, h1, h2, by rw [applyHighPassFilter_neg_cutoff, h]⟩

/-- C5 (witness): the 2 x 2 grid with the single sample 1 at (0,0) and D0 = -30. -/
theorem cutoff_not_checked_witness :
    ∃ dst : Mat ℝ, applyHighPassFilter (impulseGrid 1) (-30) = some dst ∧
      dst.rows = (impulseGrid 1).rows ∧ dst.cols = (impulseGrid 1).cols ∧
      applyHighPassFilter (impulseGrid 1) (-(-30)) = some dst :=
  cutoff_not_checked (impulseGrid 1) (-30) (by norm_num) (by decide) (by decide)
    (by decide) (by decide)

/-- C5 (counterexample): with D0 = -30 the call on the 2 x 2 grid with the single sample 1
at (0,0) is not rejected; it produces a 2 x 2 grid, the same grid as with D0 = 30. -/
theorem cutoff_not_checked_counterexample :
    (-30 : ℝ) < 0 ∧
    ∃ dst : Mat ℝ, applyHighPassFilter (impulseGrid 1) (-30) = some dst ∧
      dst.rows = 2 ∧ dst.cols = 2 ∧ applyHighPassFilter (impulseGrid 1) 30 = some dst := by
  refine ⟨by norm_num, ?_⟩
  obtain ⟨dst, h, h1, h2⟩ := applyHighPassFilter_eq_some (impulseGrid 1) 30
    (by decide) (by decide) (by decide) (by decide)
  exact ⟨dst, by rw [applyHighPassFilter_neg_cutoff, h], h1, h2, h⟩

/-! ## The FIR filter (main.cpp) -/

theorem toInt32_of_lt (size : Nat) (h : size < 2 ^ 31) : toInt32 size = size := by
  unfold toInt32
  have h1 : size % 2 ^ 32 = size := Nat.mod_eq_of_lt (by omega)
  rw [h1, if_pos h]

theorem toInt32_two_pow_31 : toInt32 (2 ^ 31) = -2 ^ 31 := by
  decide

theorem getD_set {α : Type} [Zero α] (l : List α) (i p : Nat) (a : α) (hi : i < l.length) :
    (l.set i a).getD p 0 = if p = i then a else l.getD p 0 := by
  simp only [List.getD_eq_getElem?_getD, List.getElem?_set]
  by_cases hp : p = i
  · subst hp
    simp [hi]
  · have hp' : ¬ i = p := fun h => hp h.symm
    simp [hp, hp']

theorem firStep_length {α : Type} [Zero α] [Add α] [Mul α] (s c l : List α) (i j : Nat) :
    (firStep s c i l j).length = l.length := by
  unfold firStep
  split <;> simp

theorem firStep_getD {α : Type} [Zero α] [Add α] [Mul α] (s c l : List α) (i j p : Nat)
    (hi : i < l.length) :
    (firStep s c i l j).getD p 0 =
      if p = i ∧ j ≤ i then l.getD i 0 + c.getD j 0 * s.getD (i - j) 0 else l.getD p 0 := by
  unfold firStep
  by_cases hj : j ≤ i
  · have h : 0 ≤ (i : Int) - (j : Int) := by omega
    rw [if_pos h, getD_set l i p _ hi]
    simp [hj]
  · have h : ¬ 0 ≤ (i : Int) - (j : Int) := by omega
    rw [if_neg h]
    simp [hj]

theorem firAccumulate_succ {α : Type} [Zero α] [Add α] [Mul α] (s c : List α) (i k : Nat)
    (a : α) (hk : k ≤ i) :
    firAccumulate s c i (k + 1) a =
      firAccumulate s c i k a + c.getD k 0 * s.getD (i - k) 0 := by
  unfold firAccumulate
  have hmin1 : min (i + 1) (k + 1) = k + 1 := by omega
  have hmin2 : min (i + 1) k = k := by omega
  rw [hmin1, hmin2, List.range_succ, List.foldl_append]
  rfl

theorem firAccumulate_of_lt {α : Type} [Zero α] [Add α] [Mul α] (s c : List α) (i k : Nat)
    (a : α) (hk : i < k) :
    firAccumulate s c i k a = firAccumulate s c i (i + 1) a := by
  unfold firAccumulate
  have hmin1 : min (i + 1) k = i + 1 := by omega
  have hmin2 : min (i + 1) (i + 1) = i + 1 := by omega
  rw [hmin1, hmin2]

theorem firInner {α : Type} [Zero α] [Add α] [Mul α] (s c l : List α) (i k : Nat)
    (hi : i < l.length) :
    ((List.range k).foldl (firStep s c i) l).length = l.length ∧
    ∀ p, ((List.range k).foldl (firStep s c i) l).getD p 0 =
      if p = i then firAccumulate s c i k (l.getD i 0) else l.getD p 0 := by
  induction k with
  | zero =>
    refine ⟨rfl, fun p => ?_⟩
    by_cases hp : p = i
    · simp [hp, firAccumulate]
    · simp [hp]
  | succ k ih =>
    rw [List.range_succ, List.foldl_append]
    simp only [List.foldl_cons, List.foldl_nil]
    obtain ⟨hlen, hval⟩ := ih
    refine ⟨by rw [firStep_length, hlen], ?_⟩
    intro p
    rw [firStep_getD _ _ _ _ _ _ (by rw [hlen]; exact hi), hval, hval]
    by_cases hp : p = i
    · by_cases hk : k ≤ i
      · simp only [hp, hk, and_self, if_true, firAccumulate_succ s c i k _ hk]
      · have h1 : firAccumulate s c i (k + 1) (l.getD i 0) =
            firAccumulate s c i (i + 1) (l.getD i 0) :=
          firAccumulate_of_lt s c i (k + 1) _ (by omega)
        have h2 : firAccumulate s c i k (l.getD i 0) =
            firAccumulate s c i (i + 1) (l.getD i 0) :=
          firAccumulate_of_lt s c i k _ (by omega)
        simp only [hp, hk, and_false, if_false, if_true, h1, h2]
    · simp [hp]

theorem firOuter {α : Type} [Zero α] [Add α] [Mul α] (s c : List α) (n k t : Nat)
    (ht : t ≤ n) :
    ((List.range t).foldl
      (fun filteredSignal i => (List.range k).foldl (firStep s c i) filteredSignal)
      (List.replicate n 0)).length = n ∧
    ∀ p, ((List.range t).foldl
      (fun filteredSignal i => (List.range k).foldl (firStep s c i) filteredSignal)
      (List.replicate n 0)).getD p 0 =
      if p < t then firAccumulate s c p k 0 else 0 := by
  induction t with
  | zero =>
    refine ⟨by simp, fun p => ?_⟩
    simp only [List.range_zero, List.foldl_nil, List.getD_eq_getElem?_getD,
      List.getElem?_replicate, Nat.not_lt_zero, if_false]
    split <;> rfl
  | succ t ih =>
    obtain ⟨hlen, hval⟩ := ih (by omega)
    rw [List.range_succ, List.foldl_append]
    simp only [List.foldl_cons, List.foldl_nil]
    obtain ⟨hlen2, hval2⟩ := firInner s c _ t k (by rw [hlen]; omega)
    refine ⟨by rw [hlen2, hlen], fun p => ?_⟩
    rw [hval2, hval, hval]
    by_cases hp : p = t
    · subst hp
      simp
    · by_cases hlt : p < t
      · have : p < t + 1 := by omega
        simp [hp, hlt, this]
      · have : ¬ p < t + 1 := by omega
        simp [hp, hlt, this]

/-- The run of `applyFIRFilter` on a signal whose size fits an `int`: the inner loop runs
over `filterLength` coefficients, the size of `coefficients` narrowed to `int`. -/
theorem applyFIRFilter_eq_some_of_signal {α : Type} [Zero α] [Add α] [Mul α] (s c : List α)
    (hs : s.length < 2 ^ 31) :
    ∃ out, applyFIRFilter s c = some out ∧ out.length = s.length ∧
      ∀ i, out.getD i 0 =
        if i < s.length then firAccumulate s c i (toInt32 c.length).toNat 0 else 0 := by
  unfold applyFIRFilter
  simp only [toInt32_of_lt _ hs, Int.toNat_ofNat]
  rw [if_neg (by omega)]
  exact ⟨_, rfl, (firOuter s c s.length _ s.length le_rfl).1,
    (firOuter s c s.length _ s.length le_rfl).2⟩

/-- The run of `applyFIRFilter` on lists whose sizes fit an `int`. -/
theorem applyFIRFilter_eq_some {α : Type} [Zero α] [Add α] [Mul α] (s c : List α)
    (hs : s.length < 2 ^ 31) (hc : c.length < 2 ^ 31) :
    ∃ out, applyFIRFilter s c = some out ∧ out.length = s.length ∧
      ∀ i, out.getD i 0 = if i < s.length then firAccumulate s c i c.length 0 else 0 := by
  have h := applyFIRFilter_eq_some_of_signal s c hs
  rwa [toInt32_of_lt _ hc, Int.toNat_ofNat] at h

theorem applyFIRFilter_eq_none {α : Type} [Zero α] [Add α] [Mul α] (s c : List α)
    (hs : s.length = 2 ^ 31) : applyFIRFilter s c = none := by
  unfold applyFIRFilter
  simp only [hs, toInt32_two_pow_31]
  rfl

theorem ext_getD {α : Type} [Zero α] (l₁ l₂ : List α) (hlen : l₁.length = l₂.length)
    (h : ∀ i, l₁.getD i 0 = l₂.getD i 0) : l₁ = l₂ := by
  apply List.ext_getElem hlen
  intro i h1 h2
  have := h i
  rwa [List.getD_eq_getElem _ _ h1, List.getD_eq_getElem _ _ h2] at this

theorem getD_take {α : Type} [Zero α] (l : List α) (n i : Nat) :
    (l.take n).getD i 0 = if i < n then l.getD i 0 else 0 := by
  simp only [List.getD_eq_getElem?_getD, List.getElem?_take]
  split <;> rfl

theorem getD_unitImpulse {α : Type} [Zero α] [One α] (n p : Nat) :
    (unitImpulse n : List α).getD p 0 = if p = 0 then 1 else 0 := by
  unfold unitImpulse
  cases p with
  | zero => simp
  | succ q =>
    simp only [List.getD_eq_getElem?_getD, List.getElem?_cons_succ, List.getElem?_replicate,
      Nat.succ_ne_zero, if_false]
    split <;> rfl

theorem length_unitImpulse {α : Type} [Zero α] [One α] (n : Nat) (hn : 1 ≤ n) :
    (unitImpulse n : List α).length = n := by
  unfold unitImpulse
  rw [List.length_cons, List.length_replicate]
  omega

theorem foldl_congr_mem {α β : Type} (f g : β → α → β) (l : List α) (b : β)
    (h : ∀ acc, ∀ a ∈ l, f acc a = g acc a) : l.foldl f b = l.foldl g b := by
  induction l generalizing b with
  | nil => rfl
  | cons x xs ih =>
    simp only [List.foldl_cons]
    rw [h b x (List.mem_cons_self _ _)]
    exact ih _ (fun acc a ha => h acc a (List.mem_cons_of_mem _ ha))

/-- The accumulated value of sample `i` reads `signal` at the indices `0..i` only. -/
theorem firAccumulate_congr {α : Type} [Zero α] [Add α] [Mul α] (s s' c : List α) (i k : Nat)
    (a : α) (h : ∀ p, p ≤ i → s.getD p 0 = s'.getD p 0) :
    firAccumulate s c i k a = firAccumulate s' c i k a := by
  unfold firAccumulate
  apply foldl_congr_mem
  intro acc j _
  rw [h (i - j) (by omega)]

/-- In exact arithmetic the accumulated value is the sum of the terms. -/
theorem firAccumulate_eq_sum {α : Type} [Semiring α] (s c : List α) (i k : Nat) (a : α) :
    firAccumulate s c i k a =
      a + ∑ j in Finset.range (min (i + 1) k), c.getD j 0 * s.getD (i - j) 0 := by
  unfold firAccumulate
  generalize min (i + 1) k = t
  induction t with
  | zero => simp
  | succ t ih =>
    rw [List.range_succ, List.foldl_append, Finset.sum_range_succ, ← add_assoc, ← ih]
    rfl

/-- On the unit impulse, with coefficients `x` that satisfy `0 + x * 0 = 0`, the accumulated
value stays `0` as long as only the samples after the first are read. -/
theorem firAccumulate_unitImpulse_zero {α : Type} [Zero α] [One α] [Add α] [Mul α]
    (c : List α) (n i k : Nat) (hki : k ≤ i) (hkc : k ≤ c.length)
    (h0 : ∀ x ∈ c, (0 : α) + x * 0 = 0) :
    firAccumulate (unitImpulse n) c i k 0 = 0 := by
  induction k with
  | zero => simp [firAccumulate]
  | succ k ih =>
    rw [firAccumulate_succ _ _ _ _ _ (by omega), ih (by omega) (by omega), getD_unitImpulse,
      if_neg (by omega), List.getD_eq_getElem _ _ (by omega : k < c.length)]
    exact h0 _ (List.getElem_mem _)

theorem firAccumulate_unitImpulse {α : Type} [Zero α] [One α] [Add α] [Mul α]
    (c : List α) (n i : Nat)
    (h0 : ∀ x ∈ c, (0 : α) + x * 0 = 0) (h1 : ∀ x ∈ c, (0 : α) + x * 1 = x) :
    firAccumulate (unitImpulse n) c i c.length 0 = c.getD i 0 := by
  by_cases hik : i < c.length
  · rw [firAccumulate_of_lt _ _ _ _ _ hik, firAccumulate_succ _ _ _ _ _ le_rfl,
      firAccumulate_unitImpulse_zero c n i i le_rfl (by omega) h0, getD_unitImpulse,
      if_pos (by omega), List.getD_eq_getElem _ _ hik]
    exact h1 _ (List.getElem_mem _)
  · rw [firAccumulate_unitImpulse_zero c n i c.length (by omega) le_rfl h0,
      List.getD_eq_default _ _ (by omega)]

/-! ## The FIR filter on `double` samples -/

theorem double_add_val (a b : Double) : a + b = ⟨roundDouble (a.val + b.val)⟩ := rfl

theorem double_mul_val (a b : Double) : a * b = ⟨roundDouble (a.val * b.val)⟩ := rfl

theorem double_zero_val : (0 : Double) = ⟨0⟩ := rfl

/-- An odd integer `2 * j + 1` in `[2^53, 2^54)` lies halfway between the two `double`
numbers `2 * j` and `2 * j + 2` and is rounded to the one with the even significand. -/
theorem roundDouble_odd (j : ℕ) (h1 : 2 ^ 52 ≤ j) (h2 : j < 2 ^ 53) :
    roundDouble ((2 * j + 1 : ℕ) : ℝ) = if Even j then ((2 * j : ℕ) : ℝ) else ((2 * j + 2 : ℕ) : ℝ) := by
  have hpos : (0 : ℝ) < ((2 * j + 1 : ℕ) : ℝ) := by positivity
  have hlo : (2 : ℝ) ^ (53 : ℤ) ≤ ((2 * j + 1 : ℕ) : ℝ) := by
    have : (2 : ℝ) ^ (53 : ℤ) = ((2 ^ 53 : ℕ) : ℝ) := by norm_num
    rw [this]
    exact_mod_cast (by omega : 2 ^ 53 ≤ 2 * j + 1)
  have hhi : ((2 * j + 1 : ℕ) : ℝ) < (2 : ℝ) ^ (54 : ℤ) := by
    have : (2 : ℝ) ^ (54 : ℤ) = ((2 ^ 54 : ℕ) : ℝ) := by norm_num
    rw [this]
    exact_mod_cast (by omega : 2 * j + 1 < 2 ^ 54)
  have hlog1 := le_log_of_two_zpow_le _ 53 hpos hlo
  have hlog2 := log_lt_of_lt_two_zpow _ 54 hpos hhi
  have hu : ulpExponent 53 (-1022) ((2 * j + 1 : ℕ) : ℝ) = 1 := by
    unfold ulpExponent
    have : ((53 : ℕ) : ℤ) = 53 := rfl
    omega
  unfold roundDouble
  rw [roundToFormat_of_nonneg _ _ _ hpos.le]
  unfold roundMagnitude
  rw [hu]
  have ht : ((2 * j + 1 : ℕ) : ℝ) / 2 ^ (1 : ℤ) = (j : ℝ) + 1 / 2 := by
    push_cast
    rw [zpow_one]
    ring
  have hfl : ⌊(j : ℝ) + 1 / 2⌋ = (j : ℤ) := by
    rw [Int.floor_eq_iff]
    constructor
    · push_cast
      linarith
    · push_cast
      linarith
  have hrhe : roundHalfEven ((j : ℝ) + 1 / 2) = if Even j then (j : ℤ) else (j : ℤ) + 1 := by
    unfold roundHalfEven
    rw [hfl]
    have hfrac : (j : ℝ) + 1 / 2 - ((j : ℤ) : ℝ) = 1 / 2 := by
      push_cast
      ring
    rw [hfrac, if_neg (lt_irrefl _), if_neg (lt_irrefl _)]
    have : Even (j : ℤ) ↔ Even j := Int.even_coe_nat j
    by_cases he : Even j
    · rw [if_pos (this.mpr he), if_pos he]
    · rw [if_neg (fun h => he (this.mp h)), if_neg he]
  rw [ht, hrhe]
  by_cases he : Even j
  · rw [if_pos he, if_pos he]
    push_cast
    rw [zpow_one]
    ring
  · rw [if_neg he, if_neg he]
    push_cast
    rw [zpow_one]
    ring

theorem roundDouble_ten_pow_16 : roundDouble (10 ^ 16) = 10 ^ 16 := by
  have h := roundDouble_of_representable (5 ^ 16) 16 (by norm_num) (by norm_num)
  have hc : (((5 ^ 16 : ℕ) : ℝ)) * 2 ^ (16 : ℤ) = 10 ^ 16 := by norm_num
  rwa [hc] at h

theorem roundDouble_ten_pow_16_add_one : roundDouble (10 ^ 16 + 1) = 10 ^ 16 := by
  have h := roundDouble_odd 5000000000000000 (by norm_num) (by norm_num)
  rw [if_pos (by decide)] at h
  have hc : (((2 * 5000000000000000 + 1 : ℕ)) : ℝ) = 10 ^ 16 + 1 := by norm_num
  rw [hc] at h
  rw [h]
  norm_num

theorem roundDouble_ten_pow_16_sub_one : roundDouble (-10 ^ 16 + 1) = -10 ^ 16 := by
  have h := roundDouble_odd 4999999999999999 (by norm_num) (by norm_num)
  rw [if_neg (by decide)] at h
  have hc : (((2 * 4999999999999999 + 1 : ℕ)) : ℝ) = 10 ^ 16 - 1 := by norm_num
  rw [hc] at h
  have hneg : (-10 ^ 16 + 1 : ℝ) = -(10 ^ 16 - 1) := by ring
  rw [hneg, roundDouble_neg, h]
  norm_num

/-- The run of the filter on the `double` signal 10^16, 1, -10^16 with the coefficients
1, 1, 1. -/
theorem applyFIRFilter_double :
    applyFIRFilter ([⟨10 ^ 16⟩, ⟨1⟩, ⟨-10 ^ 16⟩] : List Double) [⟨1⟩, ⟨1⟩, ⟨1⟩] =
      some [⟨10 ^ 16⟩, ⟨10 ^ 16⟩, ⟨0⟩] := by
  obtain ⟨out, hout, hlen, hval⟩ := applyFIRFilter_eq_some
    ([⟨10 ^ 16⟩, ⟨1⟩, ⟨-10 ^ 16⟩] : List Double) [⟨1⟩, ⟨1⟩, ⟨1⟩] (by decide) (by decide)
  rw [hout]
  congr 1
  apply ext_getD
  · rw [hlen]
    rfl
  · intro i
    rw [hval]
    have e0 : roundDouble (0 + roundDouble (1 * 10 ^ 16)) = 10 ^ 16 := by
      rw [one_mul, roundDouble_ten_pow_16, zero_add, roundDouble_ten_pow_16]
    have e1 : roundDouble (0 + roundDouble (1 * 1)) = 1 := by
      rw [one_mul, roundDouble_one, zero_add, roundDouble_one]
    have e2 : roundDouble (0 + roundDouble (1 * -10 ^ 16)) = -10 ^ 16 := by
      rw [one_mul, roundDouble_neg, roundDouble_ten_pow_16, zero_add, roundDouble_neg,
        roundDouble_ten_pow_16]
    have m0 : roundDouble (1 * 10 ^ 16) = 10 ^ 16 := by rw [one_mul, roundDouble_ten_pow_16]
    have m1 : roundDouble ((1 : ℝ) * 1) = 1 := by rw [one_mul, roundDouble_one]
    rcases i with _ | _ | _ | i
    · show firAccumulate _ _ 0 3 0 = _
      simp only [firAccumulate, List.range_succ, List.range_zero, List.nil_append,
        List.foldl_cons, List.foldl_nil, List.getD_cons_zero, double_add_val, double_mul_val,
        double_zero_val, Nat.reduceAdd, Nat.reduceLeDiff, min_eq_left, Nat.sub_self]
      rw [e0]
    · show firAccumulate _ _ 1 3 0 = _
      simp only [firAccumulate, List.range_succ, List.range_zero, List.nil_append,
        List.cons_append, List.foldl_cons, List.foldl_nil, List.getD_cons_zero,
        List.getD_cons_succ, double_add_val, double_mul_val, double_zero_val]
      simp only [Nat.reduceAdd, Nat.reduceLeDiff, min_eq_left, Nat.reduceSub, List.range_succ,
        List.range_zero, List.nil_append, List.cons_append, List.foldl_cons, List.foldl_nil,
        List.getD_cons_zero, List.getD_cons_succ]
      rw [e1, m0, add_comm, roundDouble_ten_pow_16_add_one]
    · show firAccumulate _ _ 2 3 0 = _
      simp only [firAccumulate, Nat.reduceAdd, min_self, List.range_succ, List.range_zero,
        List.nil_append, List.cons_append, List.foldl_cons, List.foldl_nil,
        List.getD_cons_zero, List.getD_cons_succ, Nat.reduceSub, Nat.sub_self,
        double_add_val, double_mul_val, double_zero_val]
      rw [e2, m1, roundDouble_ten_pow_16_sub_one, m0]
      have : (-10 ^ 16 + 10 ^ 16 : ℝ) = 0 := by ring
      rw [this, roundDouble_zero]
    · rw [if_neg (by simp)]
      rfl

/-! ## Claims on the FIR filter -/

/-- C12 (counterexample): two inputs. For a signal of `2^31` samples the size does not fit
the `int` `signalLength`, which becomes `-2^31`, and no list is returned, so not a list of
length `n = 2^31`. For the `double` signal 10^16, 1, -10^16 and the coefficients 1, 1, 1
the list returned is 10^16, 10^16, 0: the element of index 2 is 0, while the sum
1 * (-10^16) + 1 * 1 + 1 * 10^16 is 1, as the sums 1 + 10^16 and -10^16 + 1 are rounded. -/
theorem fir_direct_convolution_counterexample :
    ((List.replicate (2 ^ 31) (0 : ℝ)).length = 2 ^ 31 ∧
      applyFIRFilter (List.replicate (2 ^ 31) (0 : ℝ)) [] = none ∧
      ¬ ∃ out, applyFIRFilter (List.replicate (2 ^ 31) (0 : ℝ)) [] = some out ∧
        out.length = (List.replicate (2 ^ 31) (0 : ℝ)).length) ∧
    (applyFIRFilter ([⟨10 ^ 16⟩, ⟨1⟩, ⟨-10 ^ 16⟩] : List Double) [⟨1⟩, ⟨1⟩, ⟨1⟩] =
        some [⟨10 ^ 16⟩, ⟨10 ^ 16⟩, ⟨0⟩] ∧
      (1 : ℝ) * (-10 ^ 16) + 1 * 1 + 1 * 10 ^ 16 = 1 ∧ (1 : ℝ) ≠ 0) := by
  have h := applyFIRFilter_eq_none (List.replicate (2 ^ 31) (0 : ℝ)) []
    (List.length_replicate _ _)
  refine ⟨⟨List.length_replicate _ _, h, ?_⟩, applyFIRFilter_double, by norm_num, one_ne_zero⟩
  rintro ⟨out, hout, _⟩
  rw [h] at hout
  exact Option.noConfusion hout

/-- C12 (amended): for every signal of length n < 2^31 and every coefficient list of length
k < 2^31, over any sample arithmetic (a type with `0`, `+`, `*` and no law assumed, such as
the IEEE doubles), applyFIRFilter returns a list of length exactly n whose i-th element is
the value accumulated from 0 in the order of the loop,
`(...((0 + coefficients[0] * signal[i]) + coefficients[1] * signal[i-1]) + ...)` up to
j = min(i, k-1); with an empty coefficient list the result is n zeros and with an empty
signal it is empty. In exact arithmetic (a semiring) the accumulated value is the sum over
j from 0 to min(i, k-1) of coefficients[j] * signal[i-j]. -/
theorem fir_direct_convolution {α : Type} [Zero α] [Add α] [Mul α]
    (signal coefficients : List α)
    (hn : signal.length < 2 ^ 31) (hk : coefficients.length < 2 ^ 31) :
    (∃ out, applyFIRFilter signal coefficients = some out ∧
      out.length = signal.length ∧
      (∀ (i : Nat) (hi : i < out.length),
        out[i] = firAccumulate signal coefficients i coefficients.length 0) ∧
      (coefficients = [] → out = List.replicate signal.length 0) ∧
      (signal = [] → out = [])) ∧
    (∀ (i : Nat), firAccumulate signal coefficients i coefficients.length 0 =
      (List.range (min (i + 1) coefficients.length)).foldl
        (fun acc j => acc + coefficients.getD j 0 * signal.getD (i - j) 0) 0) ∧
    (∀ (β : Type) [Semiring β] (s c : List β) (i : Nat),
      firAccumulate s c i c.length 0 =
        ∑ j in Finset.range (min (i + 1) c.length), c.getD j 0 * s.getD (i - j) 0) := by
  obtain ⟨out, hout, hlen, hval⟩ := applyFIRFilter_eq_some signal coefficients hn hk
  refine ⟨⟨out, hout, hlen, ?_, ?_, ?_⟩, fun i => rfl, ?_⟩
  · intro i hi
    have h := hval i
    rw [List.getD_eq_getElem _ _ hi, if_pos (by rwa [hlen] at hi)] at h
    exact h
  · intro hc
    apply ext_getD
    · rw [hlen, List.length_replicate]
    · intro i
      rw [hval, hc]
      simp only [firAccumulate, List.length_nil, Nat.min_zero, List.range_zero, List.foldl_nil,
        ite_self, List.getD_eq_getElem?_getD, List.getElem?_replicate]
      split <;> rfl
  · intro hs
    apply List.eq_nil_of_length_eq_zero
    rw [hlen, hs]
    rfl
  · intro β _ s c i
    rw [firAccumulate_eq_sum, zero_add]

/-- C12 (witness): the signal 1, 2, 3 and the coefficients 10, 1. -/
theorem fir_direct_convolution_witness :
    ([1, 2, 3] : List ℝ).length < 2 ^ 31 ∧ ([10, 1] : List ℝ).length < 2 ^ 31 ∧
    ∃ out, applyFIRFilter ([1, 2, 3] : List ℝ) [10, 1] = some out ∧
      out.length = ([1, 2, 3] : List ℝ).length :=
  ⟨by decide, by decide,
    (fir_direct_convolution ([1, 2, 3] : List ℝ) [10, 1] (by decide) (by decide)).1.imp
      (fun _ h => ⟨h.1, h.2.1⟩)⟩

/-- C13 (counterexample): a signal s of `2^31` zeros, the coefficient 1 and n = 1. The call
on the first sample of s returns a list, the call on s returns none (the size of s does not
fit the `int` `signalLength`), so there are no first n samples of applyFIRFilter(s, c). -/
theorem fir_causality_counterexample :
    1 ≤ (List.replicate (2 ^ 31) (0 : ℝ)).length ∧
    (applyFIRFilter ((List.replicate (2 ^ 31) (0 : ℝ)).take 1) [1]).isSome = true ∧
    applyFIRFilter (List.replicate (2 ^ 31) (0 : ℝ)) [1] = none := by
  refine ⟨by rw [List.length_replicate]; decide, ?_,
    applyFIRFilter_eq_none _ _ (List.length_replicate _ _)⟩
  obtain ⟨out, hout, _⟩ := applyFIRFilter_eq_some
    ((List.replicate (2 ^ 31) (0 : ℝ)).take 1) [1]
    (by rw [List.length_take, List.length_replicate]; decide) (by decide)
  rw [hout]
  rfl

/-- C13 (amended): for every coefficient list c, every signal s of fewer than 2^31 samples
and every n ≤ length(s), over any sample arithmetic (no law assumed), applyFIRFilter(s, c)
returns a list and applyFIRFilter(first n samples of s, c) returns the list of its first n
samples; and output sample i is the same for two such signals that agree on the samples
0..i, so it depends on no later sample and on no sample wrapped from the end. -/
theorem fir_causality {α : Type} [Zero α] [Add α] [Mul α] (c s : List α) (n : Nat)
    (hn : n ≤ s.length) (hs : s.length < 2 ^ 31) :
    ∃ out, applyFIRFilter s c = some out ∧
      applyFIRFilter (s.take n) c = some (out.take n) ∧
      ∀ (s' : List α) (i : Nat), i < s.length → i < s'.length → s'.length < 2 ^ 31 →
        (∀ p, p ≤ i → s.getD p 0 = s'.getD p 0) →
        ∃ out', applyFIRFilter s' c = some out' ∧ out.getD i 0 = out'.getD i 0 := by
  obtain ⟨out, hout, hlen, hval⟩ := applyFIRFilter_eq_some_of_signal s c hs
  have hlt : (s.take n).length = n := by rw [List.length_take]; omega
  obtain ⟨outn, houtn, hlenn, hvaln⟩ :=
    applyFIRFilter_eq_some_of_signal (s.take n) c (by omega)
  refine ⟨out, hout, ?_, ?_⟩
  · rw [houtn]
    congr 1
    apply ext_getD
    · rw [hlenn, List.length_take, List.length_take, hlen]
    · intro i
      rw [getD_take, hvaln, hval, hlt]
      by_cases hi : i < n
      · have hi' : i < s.length := by omega
        rw [if_pos hi, if_pos hi, if_pos hi']
        apply firAccumulate_congr
        intro p hp
        rw [getD_take, if_pos (by omega)]
      · rw [if_neg hi, if_neg hi]
  · intro s' i hi hi' hs' hagree
    obtain ⟨out', hout', _, hval'⟩ := applyFIRFilter_eq_some_of_signal s' c hs'
    refine ⟨out', hout', ?_⟩
    rw [hval, hval', if_pos hi, if_pos hi']
    exact firAccumulate_congr s s' c i _ 0 hagree

/-- C13 (witness): the signal 1, 2, 3, 4 cut after two samples, coefficients 10, 1. -/
theorem fir_causality_witness :
    2 ≤ ([1, 2, 3, 4] : List ℝ).length ∧ ([1, 2, 3, 4] : List ℝ).length < 2 ^ 31 ∧
    ∃ out, applyFIRFilter ([1, 2, 3, 4] : List ℝ) [10, 1] = some out ∧
      applyFIRFilter (([1, 2, 3, 4] : List ℝ).take 2) [10, 1] = some (out.take 2) :=
  ⟨by decide, by decide,
    (fir_causality ([10, 1] : List ℝ) [1, 2, 3, 4] 2 (by decide) (by decide)).imp
      (fun _ h => ⟨h.1, h.2.1⟩)⟩

/-- C18 (counterexample): the unit impulse of length n = `2^31`. Its size does not fit the
`int` `signalLength` and applyFIRFilter returns no list. -/
theorem fir_impulse_response_counterexample :
    1 ≤ 2 ^ 31 ∧ (unitImpulse (2 ^ 31) : List ℝ).length = 2 ^ 31 ∧
    applyFIRFilter (unitImpulse (2 ^ 31) : List ℝ) [5, 6] = none := by
  have hlen : (unitImpulse (2 ^ 31) : List ℝ).length = 2 ^ 31 :=
    length_unitImpulse _ (by decide)
  exact ⟨by decide, hlen, applyFIRFilter_eq_none _ _ hlen⟩

/-- C18 (amended): for every n with 1 ≤ n < 2^31 and every coefficient list c of length
k < 2^31 whose elements x satisfy `0 + x * 0 = 0` and `0 + x * 1 = x` in the sample
arithmetic (every finite double other than -0.0 does; an infinite or NaN coefficient does
not, as `inf * 0` is NaN), applyFIRFilter applied to the unit impulse of length n
(1 followed by n - 1 zeros) returns a list of length n whose i-th element is c[i] for
i < min(n, k) and 0 for k ≤ i < n: the coefficients, truncated or zero-extended to the
signal length. -/
theorem fir_impulse_response {α : Type} [Zero α] [One α] [Add α] [Mul α]
    (coefficients : List α) (n : Nat) (hn : 1 ≤ n) (hn31 : n < 2 ^ 31)
    (hk31 : coefficients.length < 2 ^ 31)
    (h0 : ∀ x ∈ coefficients, (0 : α) + x * 0 = 0)
    (h1 : ∀ x ∈ coefficients, (0 : α) + x * 1 = x) :
    (unitImpulse n : List α) = 1 :: List.replicate (n - 1) 0 ∧
    ∃ out, applyFIRFilter (unitImpulse n) coefficients = some out ∧
      out.length = n ∧
      (∀ (i : Nat) (hi : i < out.length),
        (∀ hik : i < coefficients.length, out[i] = coefficients[i]) ∧
        (coefficients.length ≤ i → out[i] = 0)) ∧
      out = (coefficients ++ List.replicate (n - coefficients.length) 0).take n := by
  have hlen : (unitImpulse n : List α).length = n := length_unitImpulse n hn
  obtain ⟨out, hout, hlen', hval⟩ :=
    applyFIRFilter_eq_some (unitImpulse n : List α) coefficients (by omega) hk31
  rw [hlen] at hlen'
  have hget : ∀ i, out.getD i 0 = if i < n then coefficients.getD i 0 else 0 := by
    intro i
    rw [hval, hlen, firAccumulate_unitImpulse coefficients n i h0 h1]
  refine ⟨rfl, out, hout, hlen', ?_, ?_⟩
  · intro i hi
    have h := hget i
    rw [List.getD_eq_getElem _ _ hi, if_pos (by omega)] at h
    constructor
    · intro hik
      rw [h, List.getD_eq_getElem _ _ hik]
    · intro hik
      rw [h, List.getD_eq_default _ _ hik]
  · apply ext_getD
    · rw [hlen', List.length_take, List.length_append, List.length_replicate]
      omega
    · intro i
      rw [hget, getD_take]
      by_cases hi : i < n
      · rw [if_pos hi, if_pos hi]
        by_cases hik : i < coefficients.length
        · rw [List.getD_append _ _ _ _ hik]
        · rw [List.getD_append_right _ _ _ _ (by omega), List.getD_eq_default _ _ (by omega)]
          simp only [List.getD_eq_getElem?_getD, List.getElem?_replicate]
          split <;> rfl
      · rw [if_neg hi, if_neg hi]

/-- C18 (witness): the unit impulse of length 4 and the coefficients 5, 6. -/
theorem fir_impulse_response_witness :
    1 ≤ 4 ∧ 4 < 2 ^ 31 ∧ ([5, 6] : List ℝ).length < 2 ^ 31 ∧
    (∀ x ∈ ([5, 6] : List ℝ), (0 : ℝ) + x * 0 = 0) ∧
    (∀ x ∈ ([5, 6] : List ℝ), (0 : ℝ) + x * 1 = x) ∧
    ∃ out, applyFIRFilter (unitImpulse 4) ([5, 6] : List ℝ) = some out ∧
      out = (([5, 6] : List ℝ) ++ List.replicate (4 - ([5, 6] : List ℝ).length) 0).take 4 :=
  ⟨by decide, by decide, by decide, fun x _ => by simp, fun x _ => by simp,
    (fir_impulse_response ([5, 6] : List ℝ) 4 (by decide) (by decide) (by decide)
      (fun x _ => by simp) (fun x _ => by simp)).2.imp
      (fun _ h => ⟨h.1, h.2.2.2⟩)⟩

/-! ## Claims on degenerate inputs -/

theorem getOptimalDFTSize_pos (k : Nat) (h : (k : Int) < optimalDFTSizeTabLast) :
    0 < getOptimalDFTSize k := by
  rcases Nat.eq_zero_or_pos k with h0 | h0
  · subst h0
    decide
  · have := le_getOptimalDFTSize k h
    omega

theorem applyHighPassFilter_of_empty (src : Mat ℝ) (D0 : ℝ)
    (hempty : src.rows = 0 ∨ src.cols = 0)
    (hr : (src.rows : Int) < optimalDFTSizeTabLast)
    (hc : (src.cols : Int) < optimalDFTSizeTabLast) :
    ∃ dst : Mat ℝ, applyHighPassFilter src D0 = some dst ∧ dst.rows = 0 ∧ dst.cols = 0 := by
  obtain ⟨p, hp, h1, h2, -⟩ := padded_eq_some src hr hc
  have h3 := le_getOptimalDFTSize src.rows hr
  have h4 := le_getOptimalDFTSize src.cols hc
  have hfit : 0 + src.cols ≤ (filteredMagnitude p (getOptimalDFTSize src.rows)
      (getOptimalDFTSize src.cols) D0).cols ∧
      0 + src.rows ≤ (filteredMagnitude p (getOptimalDFTSize src.rows)
      (getOptimalDFTSize src.cols) D0).rows := by
    simp only [filteredMagnitude]
    omega
  unfold applyHighPassFilter croppedMagnitude
  simp only [hp, Option.some_bind, Mat.roi]
  rw [dif_pos hfit, if_pos hempty]
  exact ⟨_, rfl, rfl, rfl⟩

/-- C14 (amended): applyHighPassFilter does not check for an empty src. For every src with
rows = 0 or cols = 0 (both below 2125764000) and every D0 the call is not rejected: the
padding step builds an all-zero grid with at least one row and one column
(getOptimalDFTSize(0) = 1), the transforms run on it, and the call returns an empty grid. An
empty image is only rejected by main, which reports "Error opening image!" and returns -1
before the filter is called. -/
theorem empty_input_not_rejected (src : Mat ℝ) (D0 : ℝ)
    (hempty : src.rows = 0 ∨ src.cols = 0)
    (hr : (src.rows : Int) < optimalDFTSizeTabLast)
    (hc : (src.cols : Int) < optimalDFTSizeTabLast) :
    (∃ p : Mat ℝ, padded src = some p ∧ 0 < p.rows ∧ 0 < p.cols ∧
      ∀ i j, p.data i j = 0) ∧
    (∃ dst : Mat ℝ, applyHighPassFilter src D0 = some dst ∧ dst.rows = 0 ∧ dst.cols = 0) ∧
    main src = some (-1, []) := by
  refine ⟨?_, applyHighPassFilter_of_empty src D0 hempty hr hc, ?_⟩
  · obtain ⟨p, hp, h1, h2, hdata⟩ := padded_eq_some src hr hc
    have h3 := getOptimalDFTSize_pos src.rows hr
    have h4 := getOptimalDFTSize_pos src.cols hc
    refine ⟨p, hp, by omega, by omega, ?_⟩
    intro i j
    rw [hdata, dif_neg]
    intro h
    have := i.isLt
    omega
  · have h : src.empty = true := by
      unfold Mat.empty
      rcases hempty with h | h <;> simp [h]
    unfold main
    rw [if_pos h]

/-- C14 (witness): the matrix with no rows and no columns. -/
theorem empty_input_not_rejected_witness :
    (∃ p : Mat ℝ, padded (Mat.mk 0 0 (fun i _ => i.elim0)) = some p ∧ 0 < p.rows ∧ 0 < p.cols ∧
      ∀ i j, p.data i j = 0) ∧
    (∃ dst : Mat ℝ, applyHighPassFilter (Mat.mk 0 0 (fun i _ => i.elim0)) 30 = some dst ∧
      dst.rows = 0 ∧ dst.cols = 0) ∧
    main (Mat.mk 0 0 (fun i _ => i.elim0)) = some (-1, []) :=
  empty_input_not_rejected (Mat.mk 0 0 (fun i _ => i.elim0)) 30 (Or.inl rfl)
    (by decide) (by decide)

/-- C14 (counterexample): the call on the 0 x 0 matrix with D0 = 30 is not rejected: the
padded grid is 1 x 1 and the call returns a grid (without samples). -/
theorem empty_input_not_rejected_counterexample :
    (Mat.mk 0 0 (fun i _ => i.elim0) : Mat ℝ).empty = true ∧
    (∃ p : Mat ℝ, padded (Mat.mk 0 0 (fun i _ => i.elim0)) = some p ∧
      p.rows = 1 ∧ p.cols = 1) ∧
    ∃ dst : Mat ℝ, applyHighPassFilter (Mat.mk 0 0 (fun i _ => i.elim0)) 30 = some dst := by
  refine ⟨rfl, ?_, ?_⟩
  · obtain ⟨p, hp, h1, h2, -⟩ := padded_eq_some (Mat.mk 0 0 (fun i _ => i.elim0))
      (by decide) (by decide)
    have hopt : getOptimalDFTSize ((0 : Nat) : Int) = 1 := by decide
    have h1' : (p.rows : Int) = getOptimalDFTSize ((0 : Nat) : Int) := h1
    have h2' : (p.cols : Int) = getOptimalDFTSize ((0 : Nat) : Int) := h2
    rw [hopt] at h1' h2'
    exact ⟨p, hp, by exact_mod_cast h1', by exact_mod_cast h2'⟩
  · obtain ⟨dst, h, -, -⟩ := applyHighPassFilter_of_empty (Mat.mk 0 0 (fun i _ => i.elim0)) 30
      (Or.inl rfl) (by decide) (by decide)
    exact ⟨dst, h⟩

/-- C17 (counterexample): a grid of 2125764000 rows and one column is not empty and the
cutoff 30 is not 0, but the call with the cutoff -30 does not complete: the padded size m
is -1, the border width m - rows is negative, cv::copyMakeBorder raises an exception and no
grid is returned. -/
theorem cutoff_sign_symmetry_counterexample :
    (0 < (Mat.mk 2125764000 1 (fun _ _ => (1 : ℝ))).rows ∧
      0 < (Mat.mk 2125764000 1 (fun _ _ => (1 : ℝ))).cols) ∧
    (30 : ℝ) ≠ 0 ∧
    applyHighPassFilter (Mat.mk 2125764000 1 (fun _ _ => (1 : ℝ))) (-30) = none := by
  refine ⟨⟨by norm_num, by norm_num⟩, by norm_num, ?_⟩
  have h : padded (Mat.mk 2125764000 1 (fun _ _ => (1 : ℝ))) = none :=
    padded_eq_none_of_rows _ (by simp [optimalDFTSizeTabLast])
  simp [applyHighPassFilter, croppedMagnitude, h]

/-- C17 (amended): for every src with 0 < rows < 2125764000 and 0 < cols < 2125764000 and
every D0 ≠ 0, applyHighPassFilter(src, -D0) completes and returns exactly the grid that
applyHighPassFilter(src, D0) returns, a grid of rows x cols samples; the cutoff enters only
through D0 * D0, so every mask value is the same for -D0 and D0. -/
theorem cutoff_sign_symmetry (src : Mat ℝ) (D0 : ℝ)
    (hsrc : 0 < src.rows ∧ 0 < src.cols) (_hD : D0 ≠ 0)
    (hr : (src.rows : Int) < optimalDFTSizeTabLast)
    (hc : (src.cols : Int) < optimalDFTSizeTabLast) :
    (∃ dst : Mat ℝ, applyHighPassFilter src (-D0) = some dst ∧
      applyHighPassFilter src D0 = some dst ∧
      dst.rows = src.rows ∧ dst.cols = src.cols) ∧
    (∀ (m n : Int) (u v : Nat), filterAt m n (-D0) u v = filterAt m n D0 u v) := by
  obtain ⟨dst, h, h1, h2⟩ := applyHighPassFilter_eq_some src D0 hsrc.1 hsrc.2 hr hc
  exact ⟨⟨dst, by rw [applyHighPassFilter_neg_cutoff, h], h, h1, h2⟩,
    fun m n u v => filterAt_neg_cutoff m n D0 u v⟩

/-- C17 (witness): the 2 x 2 grid with the single sample 1 at (0,0) and the cutoffs 30 and
-30. -/
theorem cutoff_sign_symmetry_witness :
    (∃ dst : Mat ℝ, applyHighPassFilter (impulseGrid 1) (-30) = some dst ∧
      applyHighPassFilter (impulseGrid 1) 30 = some dst ∧
      dst.rows = (impulseGrid 1).rows ∧ dst.cols = (impulseGrid 1).cols) ∧
    (∀ (m n : Int) (u v : Nat), filterAt m n (-30) u v = filterAt m n 30 u v) :=
  cutoff_sign_symmetry (impulseGrid 1) 30 ⟨by decide, by decide⟩ (by norm_num)
    (by decide) (by decide)

/-! ## Scaling of the samples -/

end GFSK
